import Mathlib

/-!
Verification of the quill-writer CRDT persistence subsystem.

The repository stores project metadata in a Yjs CRDT document persisted as a
base64 snapshot (`yjs-doc.bin`) plus an append-only oplog (`oplog.jsonl`).
The Lean development below shallowly embeds the lifecycle code of
`yjs-doc` (loadSnapshot / replayOplog / loadYjsDoc / createCheckpoint /
setupOplogObserver), the format helpers (`format.ts`), the reconciler
(`loader.ts` / syncBlocksWithFilesystem), the manifest gate (`writer.ts` /
loadCrdtProject) and the migration engine (`migration` in crdt/index).

The Yjs library itself is an external dependency, not part of the
repository. Its update semantics are modelled from the spec (section 4.1):
a document state is a finite set of CRDT operations, an update is likewise a
finite set of operations, and applying an update merges it into the state by
set union, which is commutative and idempotent. Field reads are
last-writer-wins over (clock, client) stamps.
-/

namespace Quill

/-- Block metadata describing a content file: the `BlockMetadata` interface
of `src/lib/project/types.ts` (staged inside `src/lib/filesystem/writer.ts`),
with fields `id`, `tags` and `characterIds`. The optional `color` and
`arrangement` fields are never set by `createBlockMetadata` and never read
by any operation embedded here, so they are omitted. -/
structure BlockMeta where
  id : String
  tags : List String
  characterIds : List String
deriving DecidableEq

/-- Lamport-style stamp attached to every CRDT operation. Modelled from the
spec: Yjs operations carry a (client, clock) pair used only for
deterministic last-writer-wins resolution. -/
structure Stamp where
  client : Nat
  clock : Nat
deriving DecidableEq

/-- Last-writer-wins order on stamps: later clock wins, client id breaks
ties. -/
def stampLe (a b : Stamp) : Prop :=
  a.clock < b.clock ∨ (a.clock = b.clock ∧ a.client ≤ b.client)

instance (a b : Stamp) : Decidable (stampLe a b) := by
  unfold stampLe; infer_instance

theorem stampLe_refl (a : Stamp) : stampLe a a := Or.inr ⟨rfl, le_refl _⟩

/-- Keys of the shared `project` root map of the Yjs document
(`getProjectMap` in the lifecycle module): the four scalar fields, the four
container fields, and the per-entry keys of the `blocks` and `settings`
maps. -/
inductive FieldKey where
  | name
  | projectId
  | createdAt
  | updatedAt
  | blocksRoot
  | charactersRoot
  | settingsRoot
  | tracksRoot
  | blockEntry (path : String)
  | settingEntry (key : String)
deriving DecidableEq

/-- Values stored in the document. Characters and arrangement tracks are
opaque to this subsystem (they are read and written wholesale), so their
elements are modelled as strings. -/
inductive YValue where
  | str (s : String)
  | num (n : Nat)
  | block (b : BlockMeta)
  | charList (cs : List String)
  | trackList (ts : List String)
  | emptyMap
  | deleted
deriving DecidableEq

/-- A single CRDT operation: a stamped write of a value at a key. -/
structure YOp where
  stamp : Stamp
  key : FieldKey
  value : YValue
deriving DecidableEq

/-- Modelled from the spec: the state of a Yjs document is the finite set of
CRDT operations it has integrated. -/
abbrev YState := Finset YOp

/-- Modelled from the spec: a binary update delta is a finite set of
operations. -/
abbrev YUpdate := Finset YOp

/-- Modelled from the spec: `Y.applyUpdate` merges a delta into the document
by integrating every operation it does not already contain, i.e. set
union. -/
def applyUpdate (s : YState) (u : YUpdate) : YState := s ∪ u

/-- Modelled from the spec: `Y.encodeStateAsUpdate` encodes the full state
as one update containing every integrated operation. -/
def encodeStateAsUpdate (s : YState) : YUpdate := s

def mkOp (client clock : Nat) (k : FieldKey) (v : YValue) : YOp :=
  ⟨⟨client, clock⟩, k, v⟩

/-- All operations of the document that target a given key. -/
def fieldOps (s : YState) (k : FieldKey) : Finset YOp :=
  s.filter (fun o => o.key = k)

/-- Truthiness of `map.get(key)` in the source: the key has been written at
least once. -/
def hasField (s : YState) (k : FieldKey) : Prop :=
  (fieldOps s k).Nonempty

instance (s : YState) (k : FieldKey) : Decidable (hasField s k) := by
  unfold hasField; infer_instance

/-- Last-writer-wins resolution of a set of competing operations: the values
of the operations whose stamp dominates every other candidate. -/
def lwwOf (c : Finset YOp) : Finset YValue :=
  (c.filter (fun o => ∀ p ∈ c, stampLe p.stamp o.stamp)).image YOp.value

/-- The visible value(s) of a field: last-writer-wins over the operations at
its key. On every state reached by the embedded code this is empty or a
singleton. -/
def fieldVals (s : YState) (k : FieldKey) : Finset YValue :=
  lwwOf (fieldOps s k)

@[simp] theorem fieldOps_empty (k : FieldKey) : fieldOps (∅ : YState) k = ∅ := rfl

theorem fieldOps_insert (o : YOp) (s : YState) (k : FieldKey) :
    fieldOps (insert o s) k =
      if o.key = k then insert o (fieldOps s k) else fieldOps s k := by
  simp [fieldOps, Finset.filter_insert]

theorem fieldOps_union (s t : YState) (k : FieldKey) :
    fieldOps (s ∪ t) k = fieldOps s k ∪ fieldOps t k := by
  simp [fieldOps, Finset.filter_union]

theorem fieldOps_singleton (o : YOp) (k : FieldKey) :
    fieldOps ({o} : YState) k = if o.key = k then {o} else ∅ := by
  simp [fieldOps, Finset.filter_singleton]

@[simp] theorem lwwOf_empty : lwwOf (∅ : Finset YOp) = ∅ := rfl

theorem lwwOf_singleton (o : YOp) : lwwOf ({o} : Finset YOp) = {o.value} := by
  have h : ({o} : Finset YOp).filter (fun a => ∀ p ∈ ({o} : Finset YOp), stampLe p.stamp a.stamp)
      = {o} := by
    apply Finset.filter_true_of_mem
    intro a ha p hp
    rcases Finset.mem_singleton.mp ha with rfl
    rcases Finset.mem_singleton.mp hp with rfl
    exact stampLe_refl _
  rw [lwwOf, h, Finset.image_singleton]

theorem lwwOf_pair (a b : YOp) (hab : stampLe a.stamp b.stamp)
    (hba : ¬ stampLe b.stamp a.stamp) :
    lwwOf ({a, b} : Finset YOp) = {b.value} := by
  have hne : a ≠ b := by
    rintro rfl; exact hba hab
  have h : ({a, b} : Finset YOp).filter
      (fun o => ∀ p ∈ ({a, b} : Finset YOp), stampLe p.stamp o.stamp) = {b} := by
    apply Finset.ext
    intro o
    constructor
    · intro ho
      rcases Finset.mem_filter.mp ho with ⟨hmem, hall⟩
      rcases Finset.mem_insert.mp hmem with rfl | hmem
      · exact absurd (hall b (by simp)) hba
      · exact hmem
    · intro ho
      rcases Finset.mem_singleton.mp ho with rfl
      refine Finset.mem_filter.mpr ⟨by simp, ?_⟩
      intro p hp
      rcases Finset.mem_insert.mp hp with rfl | hp
      · exact hab
      · rcases Finset.mem_singleton.mp hp with rfl
        exact stampLe_refl _
  rw [lwwOf, h, Finset.image_singleton]

theorem fieldVals_of_fieldOps_singleton {s : YState} {k : FieldKey} {o : YOp}
    (h : fieldOps s k = {o}) : fieldVals s k = {o.value} := by
  rw [fieldVals, h, lwwOf_singleton]

-- =============================================================================
-- Oplog entries and files (format.ts and the lifecycle module)
-- =============================================================================

/-- Decoding outcome of the base64 `update` field of an oplog entry:
either it decodes to a Yjs update, or `atob`/`Y.applyUpdate` throws. -/
inductive UpdateEnc where
  | ok (u : YUpdate)
  | badBytes
deriving DecidableEq

/-- One physical line of `oplog.jsonl` as seen by `replayOplog`:
blank/whitespace lines (dropped by `filter(Boolean)` or trimmed to nothing
by `parseOplogEntry`), lines `JSON.parse` rejects (`parseOplogEntry`
returns null), and parsed entries carrying timestamp, client id and the
encoded update. -/
inductive OplogLine where
  | blank
  | badJson (raw : String)
  | entry (ts clientId : String) (enc : UpdateEnc)
deriving DecidableEq

/-- Decoding outcome of the snapshot file `yjs-doc.bin`: either its base64
content decodes to a full-state update, or decoding throws. -/
inductive SnapshotContent where
  | ok (u : YUpdate)
  | corrupt
deriving DecidableEq

/-- The two persistence files of one project folder, each either missing or
present with (decoded) content. -/
structure DocFs where
  snapshot : Option SnapshotContent
  oplog : Option (List OplogLine)
deriving DecidableEq

/-- Result of `replayOplog`: the mutated document, the count of applied
entries the source returns, and the number of `console.warn` calls issued
for entries whose update failed to decode or apply. -/
structure ReplayAcc where
  doc : YState
  count : Nat
  warns : Nat
deriving DecidableEq

/-- One iteration of the replay loop in `replayOplog`: unparsable and blank
lines are skipped by `if (!entry) continue` with no warning; an entry whose
update fails to decode is skipped with a warning; a decodable entry is
applied and counted. -/
def replayStep (acc : ReplayAcc) (l : OplogLine) : ReplayAcc :=
  match l with
  | .blank => acc
  | .badJson _ => acc
  | .entry _ _ .badBytes => { acc with warns := acc.warns + 1 }
  | .entry _ _ (.ok u) => { acc with doc := applyUpdate acc.doc u, count := acc.count + 1 }

/-- The replay loop of `replayOplog` over the parsed lines, in file order. -/
def replayLines (doc : YState) (lines : List OplogLine) : ReplayAcc :=
  lines.foldl replayStep ⟨doc, 0, 0⟩

/-- `replayOplog`: returns 0 with the document untouched when the oplog file
is missing, otherwise runs the replay loop over its lines in file order. -/
def replayOplog (fs : DocFs) (doc : YState) : ReplayAcc :=
  match fs.oplog with
  | none => ⟨doc, 0, 0⟩
  | some lines => replayLines doc lines

theorem replayLines_foldl_doc_of_stale (lines : List OplogLine) :
    ∀ (acc : ReplayAcc),
      (∀ l ∈ lines, ∀ ts cid u, l = OplogLine.entry ts cid (.ok u) → u ⊆ acc.doc) →
      (lines.foldl replayStep acc).doc = acc.doc := by
  induction lines with
  | nil => intro acc _; rfl
  | cons l rest ih =>
    intro acc hstale
    have hrest : ∀ m ∈ rest, ∀ ts cid u, m = OplogLine.entry ts cid (.ok u) →
        u ⊆ (replayStep acc l).doc := by
      intro m hm ts cid u hmu
      have hsub := hstale m (List.mem_cons_of_mem _ hm) ts cid u hmu
      cases l with
      | blank => exact hsub
      | badJson _ => exact hsub
      | entry ts2 cid2 enc =>
        cases enc with
        | badBytes => exact hsub
        | ok v =>
          simp only [replayStep]
          exact fun x hx => Finset.mem_union_left _ (hsub hx)
    have hstep : (replayStep acc l).doc = acc.doc := by
      cases l with
      | blank => rfl
      | badJson _ => rfl
      | entry ts cid enc =>
        cases enc with
        | badBytes => rfl
        | ok u =>
          have hsub := hstale _ (List.mem_cons_self _ _) ts cid u rfl
          simp only [replayStep, applyUpdate]
          exact Finset.union_eq_left.mpr hsub
    calc (List.foldl replayStep acc (l :: rest)).doc
        = (List.foldl replayStep (replayStep acc l) rest).doc := rfl
      _ = (replayStep acc l).doc := ih _ hrest
      _ = acc.doc := hstep

/-- C1. Applying the same update twice yields the same state as applying it
once, and replaying a stale oplog whose updates are already contained in the
document leaves the document state unchanged. -/
theorem C1_update_idempotent :
    (∀ (s : YState) (u : YUpdate),
      applyUpdate (applyUpdate s u) u = applyUpdate s u) ∧
    (∀ (doc : YState) (lines : List OplogLine),
      (∀ l ∈ lines, ∀ ts cid u, l = OplogLine.entry ts cid (.ok u) → u ⊆ doc) →
      (replayLines doc lines).doc = doc) := by
  constructor
  · intro s u
    simp [applyUpdate, Finset.union_assoc]
  · intro doc lines hstale
    exact replayLines_foldl_doc_of_stale lines ⟨doc, 0, 0⟩ hstale

/-- Witness for C1 at a concrete input: one operation, its update applied
twice, and a one-entry oplog already contained in the document. -/
theorem C1_update_idempotent_witness :
    applyUpdate (applyUpdate {mkOp 1 0 .name (.str "a")} {mkOp 1 0 .name (.str "a")})
        {mkOp 1 0 .name (.str "a")}
      = applyUpdate {mkOp 1 0 .name (.str "a")} {mkOp 1 0 .name (.str "a")} ∧
    (replayLines {mkOp 1 0 .name (.str "a")}
        [OplogLine.entry "t" "c" (.ok {mkOp 1 0 .name (.str "a")})]).doc
      = {mkOp 1 0 .name (.str "a")} :=
  ⟨C1_update_idempotent.1 _ _,
   C1_update_idempotent.2 _ _ (by
    intro l hl ts cid u hmu
    simp only [List.mem_singleton] at hl
    subst hl
    cases hmu
    exact fun x hx => hx)⟩

-- =============================================================================
-- Per-block mutation (spec 4.1 upsertBlock) and commutative merge
-- =============================================================================

/-- Modelled from the spec: `upsertBlock(path, metadata)` writes one stamped
operation into the blocks map and emits exactly one update containing that
change (spec section 4.1; the UI mutates the shared blocks map through the
document handle). -/
def setBlockEntry (s : YState) (path : String) (m : BlockMeta) (st : Stamp) :
    YState × YUpdate :=
  let op : YOp := ⟨st, .blockEntry path, .block m⟩
  (applyUpdate s {op}, {op})

/-- C2. Two instances starting from the same snapshot, one setting
`"x.md"` tags to `["foo"]` and the other setting `"y.md"` tags to
`["bar"]`, converge to identical states — and in particular identical
`blocks` maps — after exchanging and applying the two emitted updates in
either order. -/
theorem C2_merge_commutative (s : YState) (stA stB : Stamp) (mA mB : BlockMeta)
    (hA : mA.tags = ["foo"]) (hB : mB.tags = ["bar"]) :
    applyUpdate (setBlockEntry s "x.md" mA stA).1 (setBlockEntry s "y.md" mB stB).2
      = applyUpdate (setBlockEntry s "y.md" mB stB).1 (setBlockEntry s "x.md" mA stA).2 ∧
    (∀ p : String,
      fieldVals (applyUpdate (setBlockEntry s "x.md" mA stA).1
          (setBlockEntry s "y.md" mB stB).2) (.blockEntry p)
        = fieldVals (applyUpdate (setBlockEntry s "y.md" mB stB).1
          (setBlockEntry s "x.md" mA stA).2) (.blockEntry p)) := by
  have hstate :
      applyUpdate (setBlockEntry s "x.md" mA stA).1 (setBlockEntry s "y.md" mB stB).2
        = applyUpdate (setBlockEntry s "y.md" mB stB).1 (setBlockEntry s "x.md" mA stA).2 := by
    simp only [setBlockEntry, applyUpdate]
    rw [Finset.union_assoc, Finset.union_assoc, Finset.union_comm ({⟨stA, .blockEntry "x.md", .block mA⟩} : Finset YOp)]
  exact ⟨hstate, fun p => by rw [hstate]⟩

/-- Witness for C2 at concrete metadata values with tags `["foo"]` and
`["bar"]`. -/
theorem C2_merge_commutative_witness :
    applyUpdate (setBlockEntry ∅ "x.md" ⟨"ida", ["foo"], []⟩ ⟨1, 0⟩).1
        (setBlockEntry ∅ "y.md" ⟨"idb", ["bar"], []⟩ ⟨2, 0⟩).2
      = applyUpdate (setBlockEntry ∅ "y.md" ⟨"idb", ["bar"], []⟩ ⟨2, 0⟩).1
        (setBlockEntry ∅ "x.md" ⟨"ida", ["foo"], []⟩ ⟨1, 0⟩).2 :=
  (C2_merge_commutative ∅ ⟨1, 0⟩ ⟨2, 0⟩ ⟨"ida", ["foo"], []⟩ ⟨"idb", ["bar"], []⟩ rfl rfl).1

-- =============================================================================
-- Document initialization and the load/checkpoint lifecycle
-- =============================================================================

/-- `initializeYjsDoc`: writes the default structure into the root map,
field by field, skipping every field that is already present
(`if (!map.get(...))` in the source). `now` stands for `Date.now()`;
`client`/`clock0` stamp the freshly created operations. -/
def initializeYjsDoc (s : YState) (projectName projectId : String)
    (client clock0 now : Nat) : YState :=
  let s1 := if hasField s .name then s
    else insert (mkOp client clock0 .name (.str projectName)) s
  let s2 := if hasField s1 .projectId then s1
    else insert (mkOp client (clock0 + 1) .projectId (.str projectId)) s1
  let s3 := if hasField s2 .createdAt then s2
    else insert (mkOp client (clock0 + 2) .createdAt (.num now)) s2
  let s4 := if hasField s3 .updatedAt then s3
    else insert (mkOp client (clock0 + 3) .updatedAt (.num now)) s3
  let s5 := if hasField s4 .blocksRoot then s4
    else insert (mkOp client (clock0 + 4) .blocksRoot .emptyMap) s4
  let s6 := if hasField s5 .charactersRoot then s5
    else insert (mkOp client (clock0 + 5) .charactersRoot (.charList [])) s5
  let s7 := if hasField s6 .settingsRoot then s6
    else insert (mkOp client (clock0 + 6) .settingsRoot .emptyMap) s6
  if hasField s7 .tracksRoot then s7
  else insert (mkOp client (clock0 + 7) .tracksRoot (.trackList [])) s7

/-- `createYjsDoc`: a fresh document initialized with the default
structure. -/
def createYjsDoc (projectName projectId : String) (client clock0 now : Nat) : YState :=
  initializeYjsDoc ∅ projectName projectId client clock0 now

/-- `loadSnapshot`: returns false when the snapshot file is missing; reads
and decodes it otherwise, applying the decoded full-state update. Any
decode failure is caught and also reported as false. -/
def loadSnapshot (fs : DocFs) (doc : YState) : YState × Bool :=
  match fs.snapshot with
  | none => (doc, false)
  | some .corrupt => (doc, false)
  | some (.ok u) => (applyUpdate doc u, true)

/-- `saveSnapshot`: encodes the full document state and writes it to the
snapshot file. -/
def saveSnapshot (fs : DocFs) (doc : YState) : DocFs :=
  { fs with snapshot := some (.ok (encodeStateAsUpdate doc)) }

/-- `clearOplog`: writes an empty oplog file. -/
def clearOplog (fs : DocFs) : DocFs :=
  { fs with oplog := some [] }

/-- `createCheckpoint`: saves a snapshot of the current state, then clears
the oplog (in that order; the inner call happens first). -/
def createCheckpoint (fs : DocFs) (doc : YState) : DocFs :=
  clearOplog (saveSnapshot fs doc)

/-- `loadYjsDoc`: starts from a fresh document, tries the snapshot first,
initializes the default structure when the snapshot did not load, and
finally replays the oplog. -/
def loadYjsDoc (fs : DocFs) (projectName projectId : String)
    (client clock0 now : Nat) : YState :=
  let loaded := loadSnapshot fs ∅
  let d := if loaded.2 then loaded.1
    else initializeYjsDoc loaded.1 projectName projectId client clock0 now
  (replayOplog fs d).doc

/-- The fully initialized fresh document, spelled out. -/
theorem initializeYjsDoc_empty (n p : String) (client clock0 now : Nat) :
    initializeYjsDoc ∅ n p client clock0 now =
      insert (mkOp client (clock0 + 7) .tracksRoot (.trackList []))
      (insert (mkOp client (clock0 + 6) .settingsRoot .emptyMap)
      (insert (mkOp client (clock0 + 5) .charactersRoot (.charList []))
      (insert (mkOp client (clock0 + 4) .blocksRoot .emptyMap)
      (insert (mkOp client (clock0 + 3) .updatedAt (.num now))
      (insert (mkOp client (clock0 + 2) .createdAt (.num now))
      (insert (mkOp client (clock0 + 1) .projectId (.str p))
      (insert (mkOp client clock0 .name (.str n)) ∅))))))) := by
  simp [initializeYjsDoc, hasField, fieldOps, mkOp, Finset.filter_insert,
    Finset.filter_singleton, Finset.filter_empty, Finset.not_nonempty_empty]

/-- The default structure produced by initializing a fresh document: the
expected name and project id, the creation timestamps, and empty blocks,
characters, settings and arrangement tracks. -/
theorem initializeYjsDoc_default_structure (n p : String) (client clock0 now : Nat) :
    fieldVals (initializeYjsDoc ∅ n p client clock0 now) .name = {.str n} ∧
    fieldVals (initializeYjsDoc ∅ n p client clock0 now) .projectId = {.str p} ∧
    fieldVals (initializeYjsDoc ∅ n p client clock0 now) .createdAt = {.num now} ∧
    fieldVals (initializeYjsDoc ∅ n p client clock0 now) .updatedAt = {.num now} ∧
    (∀ q, fieldVals (initializeYjsDoc ∅ n p client clock0 now) (.blockEntry q) = ∅) ∧
    fieldVals (initializeYjsDoc ∅ n p client clock0 now) .charactersRoot = {.charList []} ∧
    (∀ k, fieldVals (initializeYjsDoc ∅ n p client clock0 now) (.settingEntry k) = ∅) ∧
    fieldVals (initializeYjsDoc ∅ n p client clock0 now) .tracksRoot = {.trackList []} := by
  rw [initializeYjsDoc_empty]
  refine ⟨?_, ?_, ?_, ?_, fun q => ?_, ?_, fun k => ?_, ?_⟩ <;>
    simp [fieldVals, fieldOps_insert, fieldOps_singleton, mkOp, lwwOf_singleton,
      lwwOf_empty]

/-- C3. `createCheckpoint` writes the full snapshot and clears the oplog:
afterwards the oplog file is empty, the snapshot holds the encoded
checkpoint state, and loading from the resulting folder (snapshot alone,
no oplog entries) reproduces the checkpointed document state exactly. -/
theorem C3_checkpoint_correct (fs : DocFs) (doc : YState) (n p : String)
    (client clock0 now : Nat) :
    (createCheckpoint fs doc).oplog = some [] ∧
    (createCheckpoint fs doc).snapshot = some (.ok (encodeStateAsUpdate doc)) ∧
    loadYjsDoc (createCheckpoint fs doc) n p client clock0 now = doc := by
  refine ⟨rfl, rfl, ?_⟩
  simp [createCheckpoint, clearOplog, saveSnapshot, loadYjsDoc, loadSnapshot,
    replayOplog, replayLines, applyUpdate, encodeStateAsUpdate]

/-- C4 counterexample. A folder whose snapshot file exists but is corrupt:
`loadYjsDoc` does not apply the snapshot (it cannot be decoded); it takes
the default-initialization branch that the claim reserves for the
missing-snapshot case. -/
theorem C4_load_contract_cex :
    (DocFs.mk (some .corrupt) none).snapshot.isSome = true ∧
    loadYjsDoc ⟨some .corrupt, none⟩ "n" "p" 0 0 7 = initializeYjsDoc ∅ "n" "p" 0 0 7 ∧
    (∀ u : YUpdate, (DocFs.mk (some .corrupt) none).snapshot ≠ some (.ok u)) := by
  refine ⟨rfl, rfl, ?_⟩
  intro u h
  exact SnapshotContent.noConfusion (Option.some.inj h)

/-- C4 (amended). `loadYjsDoc` applies the on-disk snapshot to a fresh
document when the snapshot file exists and decodes; when the snapshot is
missing or corrupt it initializes the default structure (name, projectId,
empty blocks/characters/settings/arrangementTracks); in both cases it then
replays the oplog in file order before returning. -/
theorem C4_load_contract_amended (fs : DocFs) (n p : String) (client clock0 now : Nat) :
    (∀ u, fs.snapshot = some (.ok u) →
      loadYjsDoc fs n p client clock0 now = (replayOplog fs (applyUpdate ∅ u)).doc) ∧
    (fs.snapshot = none ∨ fs.snapshot = some .corrupt →
      loadYjsDoc fs n p client clock0 now
        = (replayOplog fs (initializeYjsDoc ∅ n p client clock0 now)).doc) ∧
    fieldVals (initializeYjsDoc ∅ n p client clock0 now) .name = {.str n} ∧
    fieldVals (initializeYjsDoc ∅ n p client clock0 now) .projectId = {.str p} ∧
    (∀ q, fieldVals (initializeYjsDoc ∅ n p client clock0 now) (.blockEntry q) = ∅) ∧
    fieldVals (initializeYjsDoc ∅ n p client clock0 now) .charactersRoot = {.charList []} ∧
    (∀ k, fieldVals (initializeYjsDoc ∅ n p client clock0 now) (.settingEntry k) = ∅) ∧
    fieldVals (initializeYjsDoc ∅ n p client clock0 now) .tracksRoot = {.trackList []} := by
  obtain ⟨h1, h2, _, _, h5, h6, h7, h8⟩ :=
    initializeYjsDoc_default_structure n p client clock0 now
  refine ⟨?_, ?_, h1, h2, h5, h6, h7, h8⟩
  · intro u hu
    obtain ⟨snap, oplog⟩ := fs
    simp only at hu
    subst hu
    simp [loadYjsDoc, loadSnapshot]
  · intro hcase
    obtain ⟨snap, oplog⟩ := fs
    rcases hcase with hc | hc <;> simp only at hc <;> subst hc <;>
      simp [loadYjsDoc, loadSnapshot]

/-- Witness for C4 at concrete folders: one with a decodable snapshot, one
with no snapshot file. -/
theorem C4_load_contract_witness :
    loadYjsDoc ⟨some (.ok {mkOp 1 0 .name (.str "a")}), some []⟩ "n" "p" 0 0 7
      = (replayOplog ⟨some (.ok {mkOp 1 0 .name (.str "a")}), some []⟩
          (applyUpdate ∅ {mkOp 1 0 .name (.str "a")})).doc ∧
    loadYjsDoc ⟨none, some []⟩ "n" "p" 0 0 7
      = (replayOplog ⟨none, some []⟩ (initializeYjsDoc ∅ "n" "p" 0 0 7)).doc :=
  ⟨(C4_load_contract_amended ⟨some (.ok {mkOp 1 0 .name (.str "a")}), some []⟩
      "n" "p" 0 0 7).1 _ rfl,
   (C4_load_contract_amended ⟨none, some []⟩ "n" "p" 0 0 7).2.1 (Or.inl rfl)⟩

/-- C5 counterexample. A folder whose snapshot file exists but is corrupt:
the load does not fail — it silently produces exactly the same
default-initialized document as the missing-snapshot fallback. -/
theorem C5_corrupt_snapshot_cex :
    (DocFs.mk (some .corrupt) (some [])).snapshot.isSome = true ∧
    loadYjsDoc ⟨some .corrupt, some []⟩ "nm" "pid" 0 0 3
      = loadYjsDoc ⟨none, some []⟩ "nm" "pid" 0 0 3 ∧
    loadYjsDoc ⟨some .corrupt, some []⟩ "nm" "pid" 0 0 3
      = initializeYjsDoc ∅ "nm" "pid" 0 0 3 :=
  ⟨rfl, rfl, rfl⟩

/-- C5 (amended). Corrupt snapshot bytes are caught inside `loadSnapshot`,
which reports the snapshot as not loaded; `loadYjsDoc` then silently falls
back to the default-initialized document plus oplog replay — exactly the
behavior of the missing-snapshot case, with no error surfaced. -/
theorem C5_corrupt_snapshot_amended (oplog : Option (List OplogLine))
    (n p : String) (client clock0 now : Nat) :
    (loadSnapshot ⟨some .corrupt, oplog⟩ ∅).2 = false ∧
    loadYjsDoc ⟨some .corrupt, oplog⟩ n p client clock0 now
      = loadYjsDoc ⟨none, oplog⟩ n p client clock0 now ∧
    loadYjsDoc ⟨some .corrupt, oplog⟩ n p client clock0 now
      = (replayOplog ⟨some .corrupt, oplog⟩
          (initializeYjsDoc ∅ n p client clock0 now)).doc := by
  refine ⟨rfl, ?_, ?_⟩
  · cases oplog <;> simp [loadYjsDoc, loadSnapshot, replayOplog]
  · simp [loadYjsDoc, loadSnapshot]

-- =============================================================================
-- Oplog replay resilience (C6) and the oplog observer (C10)
-- =============================================================================

/-- The updates of the well-formed, decodable oplog entries, in file
order. -/
def okUpdates (lines : List OplogLine) : List YUpdate :=
  lines.filterMap (fun l =>
    match l with
    | .entry _ _ (.ok u) => some u
    | _ => none)

/-- The number of oplog entries whose update fails to decode or apply
(each produces one `console.warn` in the replay loop). -/
def badUpdateCount (lines : List OplogLine) : Nat :=
  (lines.filter (fun l =>
    match l with
    | .entry _ _ .badBytes => true
    | _ => false)).length

theorem foldl_replayStep_spec (lines : List OplogLine) :
    ∀ acc : ReplayAcc,
      lines.foldl replayStep acc =
        ⟨(okUpdates lines).foldl applyUpdate acc.doc,
         acc.count + (okUpdates lines).length,
         acc.warns + badUpdateCount lines⟩ := by
  induction lines with
  | nil =>
    intro acc
    simp [okUpdates, badUpdateCount]
  | cons l rest ih =>
    intro acc
    cases l with
    | blank =>
      rw [List.foldl_cons, ih]
      simp [okUpdates, badUpdateCount, replayStep]
    | badJson raw =>
      rw [List.foldl_cons, ih]
      simp [okUpdates, badUpdateCount, replayStep]
    | entry ts cid enc =>
      cases enc with
      | badBytes =>
        rw [List.foldl_cons, ih]
        simp only [okUpdates, badUpdateCount, replayStep, List.filterMap_cons,
          List.filter_cons]
        simp [Nat.add_assoc, Nat.add_comm 1]
      | ok u =>
        rw [List.foldl_cons, ih]
        simp only [okUpdates, badUpdateCount, replayStep, List.filterMap_cons,
          List.filter_cons]
        simp [Nat.add_assoc, Nat.add_comm 1]

/-- C6 counterexample. A one-line oplog whose line is not parsable JSON:
`parseOplogEntry` returns null and the loop skips it via
`if (!entry) continue` with NO warning recorded (the `console.warn` sits
only in the catch block for undecodable updates), contradicting the claim
that every malformed line is skipped with a warning recorded. -/
theorem C6_replay_warning_cex :
    ¬ (1 ≤ (replayOplog ⟨none, some [OplogLine.badJson "not json"]⟩ ∅).warns) ∧
    (replayOplog ⟨none, some [OplogLine.badJson "not json"]⟩ ∅).doc = ∅ ∧
    (replayOplog ⟨none, some [OplogLine.badJson "not json"]⟩ ∅).count = 0 := by
  refine ⟨?_, rfl, rfl⟩
  intro h
  exact absurd h (by decide)

/-- C6 (amended). During `replayOplog`, every malformed individual line is
skipped and replay continues — a bad line never aborts the whole replay and
every well-formed entry is still decoded and applied in file order — but
only entries whose update fails to decode get a warning recorded;
unparsable-JSON and blank lines are skipped silently. -/
theorem C6_replay_resilient_amended (snap : Option SnapshotContent)
    (lines : List OplogLine) (doc : YState) :
    (replayOplog ⟨snap, some lines⟩ doc).doc
      = (okUpdates lines).foldl applyUpdate doc ∧
    (replayOplog ⟨snap, some lines⟩ doc).count = (okUpdates lines).length ∧
    (replayOplog ⟨snap, some lines⟩ doc).warns = badUpdateCount lines := by
  have h : replayOplog ⟨snap, some lines⟩ doc
      = ⟨(okUpdates lines).foldl applyUpdate doc,
         0 + (okUpdates lines).length, 0 + badUpdateCount lines⟩ := by
    show lines.foldl replayStep ⟨doc, 0, 0⟩ = _
    exact foldl_replayStep_spec lines ⟨doc, 0, 0⟩
  rw [h]
  simp

/-- `appendToOplog`: serializes an entry with the current timestamp and
client id and appends it as one line to the oplog file, creating the file
when it does not exist. -/
def appendToOplog (fs : DocFs) (u : YUpdate) (clientId ts : String) : DocFs :=
  let line := OplogLine.entry ts clientId (.ok u)
  match fs.oplog with
  | some lines => { fs with oplog := some (lines ++ [line]) }
  | none => { fs with oplog := some [line] }

/-- The handler installed by `setupOplogObserver` on one emitted update
event: events originating from oplog replay are ignored, every other
update is appended to the oplog. -/
def oplogObserverStep (clientId ts : String) (fs : DocFs)
    (ev : YUpdate × Option String) : DocFs :=
  if ev.2 = some "oplog-replay" then fs
  else appendToOplog fs ev.1 clientId ts

/-- The observer processing a stream of emitted update events in order. -/
def oplogObserverRun (clientId ts : String) (fs : DocFs)
    (evs : List (YUpdate × Option String)) : DocFs :=
  evs.foldl (oplogObserverStep clientId ts) fs

/-- The update events emitted while `replayOplog` applies the decodable
entries of the oplog: `Y.applyUpdate(ydoc, binary, "oplog-replay")` tags
every one of them with the `"oplog-replay"` origin. -/
def replayEmittedEvents (lines : List OplogLine) : List (YUpdate × Option String) :=
  lines.filterMap (fun l =>
    match l with
    | .entry _ _ (.ok u) => some (u, some "oplog-replay")
    | _ => none)

theorem oplogObserverRun_replay_events (clientId ts : String) (fs : DocFs) :
    ∀ lines : List OplogLine,
      oplogObserverRun clientId ts fs (replayEmittedEvents lines) = fs := by
  intro lines
  induction lines generalizing fs with
  | nil => rfl
  | cons l rest ih =>
    cases l with
    | blank => simpa [replayEmittedEvents, List.filterMap_cons] using ih fs
    | badJson raw => simpa [replayEmittedEvents, List.filterMap_cons] using ih fs
    | entry t c enc =>
      cases enc with
      | badBytes => simpa [replayEmittedEvents, List.filterMap_cons] using ih fs
      | ok u =>
        show oplogObserverRun clientId ts
          (oplogObserverStep clientId ts fs (u, some "oplog-replay"))
          (replayEmittedEvents rest) = fs
        rw [oplogObserverStep, if_pos rfl]
        exact ih fs

/-- C10. Every update applied during oplog replay carries the
`"oplog-replay"` origin and the observer installed by `setupOplogObserver`
never re-appends it, so processing all replay-emitted events leaves the
oplog file exactly as it was; an update from a new local mutation (origin
null) is appended as one new entry. -/
theorem C10_replay_not_relogged (fs : DocFs) (lines : List OplogLine)
    (clientId ts : String) :
    oplogObserverRun clientId ts fs (replayEmittedEvents lines) = fs ∧
    (∀ u : YUpdate, oplogObserverRun clientId ts fs [(u, none)]
      = appendToOplog fs u clientId ts) := by
  refine ⟨oplogObserverRun_replay_events clientId ts fs lines, ?_⟩
  intro u
  show oplogObserverStep clientId ts fs (u, none) = appendToOplog fs u clientId ts
  rw [oplogObserverStep, if_neg (by simp)]

-- =============================================================================
-- Reconciler: syncBlocksWithFilesystem (loader.ts)
-- =============================================================================

/-- The plain `QuillProject` record manipulated by the loader. Fields whose
internal shape this subsystem never inspects (characters, arrangement
tracks, settings values) are modelled as opaque strings; `blocks` is the
path-keyed metadata record, modelled as an association list with unique
keys. -/
structure QuillProjectV where
  name : String
  projectId : String
  createdAt : Nat
  updatedAt : Nat
  blocks : List (String × BlockMeta)
  characters : List String
  settings : List (String × String)
  arrangementTracks : List String
deriving DecidableEq

/-- Property access `record[path]` on the blocks record. -/
def lookupBlock : List (String × BlockMeta) → String → Option BlockMeta
  | [], _ => none
  | e :: rest, p => if e.1 = p then some e.2 else lookupBlock rest p

/-- `createBlockMetadata()` of `src/lib/project/types.ts` (staged inside
`src/lib/filesystem/writer.ts`): default metadata for a new file, with
`id: crypto.randomUUID()` — the generated UUID is passed explicitly here —
and empty `tags` and `characterIds`. -/
def createBlockMetadata (id : String) : BlockMeta :=
  ⟨id, [], []⟩

/-- The loop of `syncBlocksWithFilesystem` building the new blocks record:
for each scanned path in order, keep the existing metadata when present,
otherwise create default metadata (with the next fresh id) and record the
path as added. -/
def buildNewBlocks (blocks : List (String × BlockMeta)) (freshIds : Nat → String) :
    Nat → List String → List (String × BlockMeta) × List String
  | _, [] => ([], [])
  | added, p :: rest =>
    match lookupBlock blocks p with
    | some m =>
      let r := buildNewBlocks blocks freshIds added rest
      ((p, m) :: r.1, r.2)
    | none =>
      let r := buildNewBlocks blocks freshIds (added + 1) rest
      ((p, createBlockMetadata (freshIds added)) :: r.1, p :: r.2)

/-- `syncBlocksWithFilesystem`: given the scanned file paths and the
current project, returns the updated project together with the `added` and
`removed` path lists. `freshIds` supplies the ids generated by
`createBlockMetadata()` for newly discovered files. -/
def syncBlocksWithFilesystem (filePaths : List String) (project : QuillProjectV)
    (freshIds : Nat → String) : QuillProjectV × List String × List String :=
  let r := buildNewBlocks project.blocks freshIds 0 filePaths
  let removed := (project.blocks.map Prod.fst).filter (fun q => decide (q ∉ filePaths))
  ({ project with blocks := r.1 }, r.2, removed)

theorem buildNewBlocks_map_fst (blocks : List (String × BlockMeta))
    (freshIds : Nat → String) :
    ∀ (ps : List String) (n : Nat),
      ((buildNewBlocks blocks freshIds n ps).1).map Prod.fst = ps := by
  intro ps
  induction ps with
  | nil => intro n; rfl
  | cons p rest ih =>
    intro n
    cases h : lookupBlock blocks p <;>
      simp [buildNewBlocks, h, ih]

theorem buildNewBlocks_added (blocks : List (String × BlockMeta))
    (freshIds : Nat → String) :
    ∀ (ps : List String) (n : Nat),
      (buildNewBlocks blocks freshIds n ps).2
        = ps.filter (fun p => (lookupBlock blocks p).isNone) := by
  intro ps
  induction ps with
  | nil => intro n; rfl
  | cons p rest ih =>
    intro n
    cases h : lookupBlock blocks p <;>
      simp [buildNewBlocks, h, List.filter_cons, ih]

theorem buildNewBlocks_lookup_kept (blocks : List (String × BlockMeta))
    (freshIds : Nat → String) :
    ∀ (ps : List String) (n : Nat) (p : String) (m : BlockMeta),
      lookupBlock blocks p = some m → p ∈ ps →
      lookupBlock (buildNewBlocks blocks freshIds n ps).1 p = some m := by
  intro ps
  induction ps with
  | nil => intro n p m _ hmem; cases hmem
  | cons q rest ih =>
    intro n p m hlook hmem
    by_cases hpq : q = p
    · subst hpq
      rw [buildNewBlocks, hlook]
      simp [lookupBlock]
    · have hmem2 : p ∈ rest := by
        rcases List.mem_cons.mp hmem with h | h
        · exact absurd h.symm hpq
        · exact h
      cases h : lookupBlock blocks q <;>
        simp only [buildNewBlocks, h, lookupBlock, if_neg hpq] <;>
        exact ih _ p m hlook hmem2

theorem buildNewBlocks_lookup_added (blocks : List (String × BlockMeta))
    (freshIds : Nat → String) :
    ∀ (ps : List String) (n : Nat) (p : String),
      lookupBlock blocks p = none → p ∈ ps →
      ∃ k, lookupBlock (buildNewBlocks blocks freshIds n ps).1 p
        = some (createBlockMetadata (freshIds k)) := by
  intro ps
  induction ps with
  | nil => intro n p _ hmem; cases hmem
  | cons q rest ih =>
    intro n p hlook hmem
    by_cases hpq : q = p
    · subst hpq
      rw [buildNewBlocks, hlook]
      exact ⟨n, by simp [lookupBlock]⟩
    · have hmem2 : p ∈ rest := by
        rcases List.mem_cons.mp hmem with h | h
        · exact absurd h.symm hpq
        · exact h
      cases h : lookupBlock blocks q with
      | none =>
        obtain ⟨k, hk⟩ := ih (n + 1) p hlook hmem2
        exact ⟨k, by simp only [buildNewBlocks, h, lookupBlock, if_neg hpq]; exact hk⟩
      | some m =>
        obtain ⟨k, hk⟩ := ih n p hlook hmem2
        exact ⟨k, by simp only [buildNewBlocks, h, lookupBlock, if_neg hpq]; exact hk⟩

theorem buildNewBlocks_lookup_not_mem (blocks : List (String × BlockMeta))
    (freshIds : Nat → String) :
    ∀ (ps : List String) (n : Nat) (p : String), p ∉ ps →
      lookupBlock (buildNewBlocks blocks freshIds n ps).1 p = none := by
  intro ps
  induction ps with
  | nil => intro n p _; rfl
  | cons q rest ih =>
    intro n p hmem
    have hpq : q ≠ p := fun h => hmem (h ▸ List.mem_cons_self _ _)
    have hrest : p ∉ rest := fun h => hmem (List.mem_cons_of_mem _ h)
    cases h : lookupBlock blocks q <;>
      simp only [buildNewBlocks, h, lookupBlock, if_neg hpq] <;>
      exact ih _ p hrest

theorem buildNewBlocks_cons_not_mem (freshIds : Nat → String)
    (p : String) (m : BlockMeta) (blocks : List (String × BlockMeta)) :
    ∀ (ps : List String) (n : Nat), p ∉ ps →
      buildNewBlocks ((p, m) :: blocks) freshIds n ps
        = buildNewBlocks blocks freshIds n ps := by
  intro ps
  induction ps with
  | nil => intro n _; rfl
  | cons q rest ih =>
    intro n hmem
    have hpq : p ≠ q := fun h => hmem (h ▸ List.mem_cons_self _ _)
    have hrest : p ∉ rest := fun h => hmem (List.mem_cons_of_mem _ h)
    have hlook : lookupBlock ((p, m) :: blocks) q = lookupBlock blocks q := by
      simp [lookupBlock, if_neg hpq]
    cases h : lookupBlock blocks q <;>
      simp [buildNewBlocks, hlook, h, ih _ hrest]

theorem buildNewBlocks_self (freshIds : Nat → String) :
    ∀ (blocks : List (String × BlockMeta)) (ps : List String) (n : Nat),
      blocks.map Prod.fst = ps → ps.Nodup →
      buildNewBlocks blocks freshIds n ps = (blocks, []) := by
  intro blocks
  induction blocks with
  | nil =>
    intro ps n hmap _
    rw [← hmap]
    rfl
  | cons e rest ih =>
    intro ps n hmap hnd
    obtain ⟨p, m⟩ := e
    subst hmap
    have hnotmem : p ∉ rest.map Prod.fst := (List.nodup_cons.mp hnd).1
    have hnd2 : (rest.map Prod.fst).Nodup := (List.nodup_cons.mp hnd).2
    show buildNewBlocks ((p, m) :: rest) freshIds n (p :: rest.map Prod.fst) = _
    have hlook : lookupBlock ((p, m) :: rest) p = some m := by
      simp [lookupBlock]
    rw [buildNewBlocks, hlook]
    simp only
    rw [buildNewBlocks_cons_not_mem freshIds p m rest _ n hnotmem,
      ih (rest.map Prod.fst) n rfl hnd2]

/-- C7. Reconciliation: the returned blocks record is keyed exactly by the
scanned paths; paths on disk but not in the record gain fresh default
metadata (new id, empty tags and characterIds) and are reported in
`added`; record entries whose file no longer exists are dropped and
reported in `removed`; surviving entries keep their metadata unchanged;
and re-running on the result adds and removes nothing and returns the
record unchanged. -/
theorem C7_reconciler_correct (filePaths : List String) (project : QuillProjectV)
    (freshIds freshIds2 : Nat → String)
    (hps : filePaths.Nodup) (hkeys : (project.blocks.map Prod.fst).Nodup) :
    ((syncBlocksWithFilesystem filePaths project freshIds).1.blocks.map Prod.fst
      = filePaths) ∧
    ((syncBlocksWithFilesystem filePaths project freshIds).2.1
      = filePaths.filter (fun p => (lookupBlock project.blocks p).isNone)) ∧
    ((syncBlocksWithFilesystem filePaths project freshIds).2.2
      = (project.blocks.map Prod.fst).filter (fun q => decide (q ∉ filePaths))) ∧
    (∀ p m, lookupBlock project.blocks p = some m → p ∈ filePaths →
      lookupBlock (syncBlocksWithFilesystem filePaths project freshIds).1.blocks p
        = some m) ∧
    (∀ p, p ∈ (syncBlocksWithFilesystem filePaths project freshIds).2.1 →
      ∃ k, lookupBlock (syncBlocksWithFilesystem filePaths project freshIds).1.blocks p
        = some ⟨freshIds k, [], []⟩) ∧
    (∀ p, p ∈ (syncBlocksWithFilesystem filePaths project freshIds).2.2 →
      lookupBlock (syncBlocksWithFilesystem filePaths project freshIds).1.blocks p
        = none) ∧
    (syncBlocksWithFilesystem filePaths
        (syncBlocksWithFilesystem filePaths project freshIds).1 freshIds2
      = ((syncBlocksWithFilesystem filePaths project freshIds).1, [], [])) := by
  refine ⟨?_, ?_, rfl, ?_, ?_, ?_, ?_⟩
  · exact buildNewBlocks_map_fst project.blocks freshIds filePaths 0
  · exact buildNewBlocks_added project.blocks freshIds filePaths 0
  · intro p m hlook hmem
    exact buildNewBlocks_lookup_kept project.blocks freshIds filePaths 0 p m hlook hmem
  · intro p hmem
    have hadded := buildNewBlocks_added project.blocks freshIds filePaths 0
    rw [show (syncBlocksWithFilesystem filePaths project freshIds).2.1
        = (buildNewBlocks project.blocks freshIds 0 filePaths).2 from rfl, hadded] at hmem
    have hmem2 := List.mem_filter.mp hmem
    have hnone : lookupBlock project.blocks p = none :=
      Option.isNone_iff_eq_none.mp (by simpa using hmem2.2)
    exact buildNewBlocks_lookup_added project.blocks freshIds filePaths 0 p hnone hmem2.1
  · intro p hmem
    have hmem2 := List.mem_filter.mp hmem
    have hnotin : p ∉ filePaths := by simpa using hmem2.2
    exact buildNewBlocks_lookup_not_mem project.blocks freshIds filePaths 0 p hnotin
  · have hfst := buildNewBlocks_map_fst project.blocks freshIds filePaths 0
    have hself := buildNewBlocks_self freshIds2
      (buildNewBlocks project.blocks freshIds 0 filePaths).1 filePaths 0 hfst hps
    have hremoved :
        ((buildNewBlocks project.blocks freshIds 0 filePaths).1.map Prod.fst).filter
          (fun q => decide (q ∉ filePaths)) = [] := by
      rw [hfst]
      refine List.filter_eq_nil_iff.mpr ?_
      intro q hq
      simpa using hq
    simp only [syncBlocksWithFilesystem, hself, hremoved]

/-- Witness for C7 on the scenario from the spec: disk paths
`[a.md, b.md]`, existing record `[a.md, c.md]`: `b.md` is added with fresh
default metadata, `c.md` is removed, and `a.md` keeps its metadata. -/
theorem C7_reconciler_witness :
    ((syncBlocksWithFilesystem ["a.md", "b.md"]
        ⟨"P", "pid", 0, 0, [("a.md", ⟨"ia", ["t"], []⟩), ("c.md", ⟨"ic", [], ["ch"]⟩)],
          [], [], []⟩ (fun _ => "fresh")).2.1 = ["b.md"]) ∧
    ((syncBlocksWithFilesystem ["a.md", "b.md"]
        ⟨"P", "pid", 0, 0, [("a.md", ⟨"ia", ["t"], []⟩), ("c.md", ⟨"ic", [], ["ch"]⟩)],
          [], [], []⟩ (fun _ => "fresh")).2.2 = ["c.md"]) ∧
    (lookupBlock (syncBlocksWithFilesystem ["a.md", "b.md"]
        ⟨"P", "pid", 0, 0, [("a.md", ⟨"ia", ["t"], []⟩), ("c.md", ⟨"ic", [], ["ch"]⟩)],
          [], [], []⟩ (fun _ => "fresh")).1.blocks "a.md" = some ⟨"ia", ["t"], []⟩) := by
  have h := C7_reconciler_correct ["a.md", "b.md"]
    ⟨"P", "pid", 0, 0, [("a.md", ⟨"ia", ["t"], []⟩), ("c.md", ⟨"ic", [], ["ch"]⟩)],
      [], [], []⟩ (fun _ => "fresh") (fun _ => "fresh") (by decide) (by decide)
  refine ⟨?_, ?_, ?_⟩
  · rw [h.2.1]; rfl
  · rw [h.2.2.1]; rfl
  · exact h.2.2.2.1 "a.md" ⟨"ia", ["t"], []⟩ rfl (by decide)

-- =============================================================================
-- Manifest gate: validateManifest (format.ts) and loadCrdtProject (writer.ts)
-- =============================================================================

/-- The current format constant `CRDT_FORMAT_VERSION` of format.ts. -/
def CRDT_FORMAT_VERSION : String := "1.0.0"

/-- A parsed JSON value, for the content of `manifest.json`. -/
inductive JsonVal where
  | str (s : String)
  | num (n : Int)
  | boolv (b : Bool)
  | nullv
  | arr (elems : List JsonVal)
  | obj (fields : List (String × JsonVal))

/-- Property access `m[key]` on a parsed JSON value: defined on objects,
`undefined` (none) otherwise. -/
def jsonLookup : JsonVal → String → Option JsonVal
  | .obj fields, k => (fields.find? (fun e => e.1 == k)).map Prod.snd
  | _, _ => none

/-- `typeof m[key] === "string"`. -/
def isStringField : Option JsonVal → Bool
  | some (.str _) => true
  | _ => false

/-- `m.formatVersion === CRDT_FORMAT_VERSION` (after the string typecheck,
this is string equality with the format constant). -/
def matchesVersion : Option JsonVal → Bool
  | some (.str s) => decide (s = CRDT_FORMAT_VERSION)
  | _ => false

/-- The manifest record of format.ts. -/
structure ProjectManifest where
  name : String
  formatVersion : String
  createdAt : String
  modifiedAt : String
  docId : String
deriving DecidableEq

/-- `validateManifest`: the value must be a truthy object whose `name`,
`formatVersion`, `createdAt`, `modifiedAt` and `docId` properties are all
strings and whose `formatVersion` equals the format constant exactly.
(JSON values that are not objects fail: null and primitives are rejected
by the `!manifest || typeof manifest !== "object"` guard or by the string
typechecks, and arrays have none of the named properties.) -/
def validateManifest (m : JsonVal) : Bool :=
  match m with
  | .nullv => false
  | _ =>
    isStringField (jsonLookup m "name") &&
    isStringField (jsonLookup m "formatVersion") &&
    isStringField (jsonLookup m "createdAt") &&
    isStringField (jsonLookup m "modifiedAt") &&
    isStringField (jsonLookup m "docId") &&
    matchesVersion (jsonLookup m "formatVersion")

/-- The typed manifest extracted from a validated JSON value. -/
def toManifest (j : JsonVal) : Option ProjectManifest :=
  match jsonLookup j "name", jsonLookup j "formatVersion", jsonLookup j "createdAt",
      jsonLookup j "modifiedAt", jsonLookup j "docId" with
  | some (.str nm), some (.str fv), some (.str ca), some (.str ma), some (.str did) =>
    some ⟨nm, fv, ca, ma, did⟩
  | _, _, _, _, _ => none

/-- `loadManifest`: reading the manifest file (missing file: the read
throws and is caught), parsing it (`JSON.parse` throws on bad JSON and is
caught) and validating it; every failure yields null. The argument is
`none` for a missing file, `some none` for unparsable content, and
`some (some j)` for content parsed to `j`. -/
def loadManifest (file : Option (Option JsonVal)) : Option ProjectManifest :=
  match file with
  | none => none
  | some none => none
  | some (some j) => if validateManifest j then toManifest j else none

/-- `loadCrdtProject`: throws on an invalid or missing manifest, otherwise
loads the Yjs document (snapshot plus oplog replay) under the manifest
name and docId. -/
def loadCrdtProject (manifestFile : Option (Option JsonVal)) (fs : DocFs)
    (client clock0 now : Nat) : Except String (ProjectManifest × YState) :=
  match loadManifest manifestFile with
  | none => .error "Invalid or missing manifest"
  | some m => .ok (m, loadYjsDoc fs m.name m.docId client clock0 now)

theorem isStringField_iff (o : Option JsonVal) :
    isStringField o = true ↔ ∃ s, o = some (.str s) := by
  cases o with
  | none => simp [isStringField]
  | some v => cases v <;> simp [isStringField]

theorem matchesVersion_iff (o : Option JsonVal) :
    matchesVersion o = true ↔ o = some (.str CRDT_FORMAT_VERSION) := by
  cases o with
  | none => simp [matchesVersion]
  | some v => cases v <;> simp [matchesVersion]

theorem validateManifest_iff (j : JsonVal) :
    validateManifest j = true ↔
      ∃ nm ca ma did, jsonLookup j "name" = some (.str nm) ∧
        jsonLookup j "formatVersion" = some (.str CRDT_FORMAT_VERSION) ∧
        jsonLookup j "createdAt" = some (.str ca) ∧
        jsonLookup j "modifiedAt" = some (.str ma) ∧
        jsonLookup j "docId" = some (.str did) := by
  constructor
  · intro h
    have hchecks :
        isStringField (jsonLookup j "name") = true ∧
        isStringField (jsonLookup j "formatVersion") = true ∧
        isStringField (jsonLookup j "createdAt") = true ∧
        isStringField (jsonLookup j "modifiedAt") = true ∧
        isStringField (jsonLookup j "docId") = true ∧
        matchesVersion (jsonLookup j "formatVersion") = true := by
      cases j <;> simp only [validateManifest, Bool.and_eq_true] at h <;> try tauto
    obtain ⟨h1, _, h3, h4, h5, h6⟩ := hchecks
    obtain ⟨nm, hnm⟩ := (isStringField_iff _).mp h1
    obtain ⟨ca, hca⟩ := (isStringField_iff _).mp h3
    obtain ⟨ma, hma⟩ := (isStringField_iff _).mp h4
    obtain ⟨did, hdid⟩ := (isStringField_iff _).mp h5
    exact ⟨nm, ca, ma, did, hnm, (matchesVersion_iff _).mp h6, hca, hma, hdid⟩
  · rintro ⟨nm, ca, ma, did, hnm, hfv, hca, hma, hdid⟩
    have hj : ∃ fields, j = JsonVal.obj fields := by
      cases j <;> simp [jsonLookup] at hnm
      exact ⟨_, rfl⟩
    obtain ⟨fields, rfl⟩ := hj
    simp only [validateManifest, Bool.and_eq_true]
    refine ⟨⟨⟨⟨⟨?_, ?_⟩, ?_⟩, ?_⟩, ?_⟩, ?_⟩ <;>
      simp [hnm, hfv, hca, hma, hdid, isStringField, matchesVersion]

theorem toManifest_isSome_of_valid (j : JsonVal) (h : validateManifest j = true) :
    ∃ m, toManifest j = some m := by
  obtain ⟨nm, ca, ma, did, hnm, hfv, hca, hma, hdid⟩ := (validateManifest_iff j).mp h
  exact ⟨⟨nm, CRDT_FORMAT_VERSION, ca, ma, did⟩, by
    rw [toManifest, hnm, hfv, hca, hma, hdid]⟩

/-- C8. The manifest gate: `loadCrdtProject` succeeds exactly when the
manifest file exists, parses as JSON, and `validateManifest` accepts it —
which holds exactly when `name`, `formatVersion`, `createdAt`,
`modifiedAt` and `docId` are all strings and `formatVersion` equals the
current format constant `"1.0.0"`; a missing manifest or a version
mismatch makes the load fail. -/
theorem C8_manifest_gate (mf : Option (Option JsonVal)) (fs : DocFs)
    (client clock0 now : Nat) :
    ((loadCrdtProject mf fs client clock0 now).isOk = true ↔
      ∃ j, mf = some (some j) ∧ validateManifest j = true) ∧
    (∀ j, validateManifest j = true ↔
      ∃ nm ca ma did, jsonLookup j "name" = some (.str nm) ∧
        jsonLookup j "formatVersion" = some (.str CRDT_FORMAT_VERSION) ∧
        jsonLookup j "createdAt" = some (.str ca) ∧
        jsonLookup j "modifiedAt" = some (.str ma) ∧
        jsonLookup j "docId" = some (.str did)) ∧
    (mf = none → (loadCrdtProject mf fs client clock0 now).isOk = false) ∧
    (∀ j fv, jsonLookup j "formatVersion" = some (.str fv) →
      fv ≠ CRDT_FORMAT_VERSION →
      (loadCrdtProject (some (some j)) fs client clock0 now).isOk = false) := by
  have hok : ∀ mf2 : Option (Option JsonVal),
      (loadCrdtProject mf2 fs client clock0 now).isOk = true ↔
        ∃ j, mf2 = some (some j) ∧ validateManifest j = true := by
    intro mf2
    match mf2 with
    | none => simp [loadCrdtProject, loadManifest, Except.isOk, Except.toBool]
    | some none => simp [loadCrdtProject, loadManifest, Except.isOk, Except.toBool]
    | some (some j) =>
      by_cases hv : validateManifest j = true
      · obtain ⟨m, hm⟩ := toManifest_isSome_of_valid j hv
        simp [loadCrdtProject, loadManifest, hv, hm, Except.isOk, Except.toBool]
      · have hv2 : validateManifest j = false := by
          cases hb : validateManifest j
          · rfl
          · exact absurd hb hv
        simp [loadCrdtProject, loadManifest, hv2, Except.isOk, Except.toBool, hv]
  refine ⟨hok mf, validateManifest_iff, ?_, ?_⟩
  · rintro rfl
    simp [loadCrdtProject, loadManifest, Except.isOk, Except.toBool]
  · intro j fv hfv hne
    have hnv : ¬ validateManifest j = true := by
      intro hv
      obtain ⟨nm, ca, ma, did, _, hfv2, _, _, _⟩ := (validateManifest_iff j).mp hv
      rw [hfv] at hfv2
      exact hne (by injection (Option.some.inj hfv2))
    cases hb : (loadCrdtProject (some (some j)) fs client clock0 now).isOk
    · rfl
    · obtain ⟨j2, hj2, hv2⟩ := (hok (some (some j))).mp hb
      obtain rfl : j2 = j := by injection (Option.some.inj hj2.symm)
      exact absurd hv2 hnv

/-- Witness for C8: a well-formed manifest passes the gate; a manifest
with `formatVersion` `"0.9.0"` is rejected. -/
theorem C8_manifest_gate_witness :
    (loadCrdtProject (some (some (JsonVal.obj
        [("name", .str "Novel1"), ("formatVersion", .str "1.0.0"),
         ("createdAt", .str "t0"), ("modifiedAt", .str "t1"),
         ("docId", .str "d1")]))) ⟨none, none⟩ 0 0 0).isOk = true ∧
    (loadCrdtProject (some (some (JsonVal.obj
        [("name", .str "Novel1"), ("formatVersion", .str "0.9.0"),
         ("createdAt", .str "t0"), ("modifiedAt", .str "t1"),
         ("docId", .str "d1")]))) ⟨none, none⟩ 0 0 0).isOk = false ∧
    (loadCrdtProject none ⟨none, none⟩ 0 0 0).isOk = false := by
  refine ⟨?_, ?_, ?_⟩
  · exact ((C8_manifest_gate (some (some (JsonVal.obj
        [("name", .str "Novel1"), ("formatVersion", .str "1.0.0"),
         ("createdAt", .str "t0"), ("modifiedAt", .str "t1"),
         ("docId", .str "d1")]))) ⟨none, none⟩ 0 0 0).1).mpr ⟨_, rfl, by rfl⟩
  · exact (C8_manifest_gate (some (some (JsonVal.obj
        [("name", .str "Novel1"), ("formatVersion", .str "0.9.0"),
         ("createdAt", .str "t0"), ("modifiedAt", .str "t1"),
         ("docId", .str "d1")]))) ⟨none, none⟩ 0 0 0).2.2.2
      (JsonVal.obj
        [("name", .str "Novel1"), ("formatVersion", .str "0.9.0"),
         ("createdAt", .str "t0"), ("modifiedAt", .str "t1"),
         ("docId", .str "d1")]) "0.9.0" (by rfl) (by decide)
  · exact (C8_manifest_gate none ⟨none, none⟩ 0 0 0).2.2.1 rfl

-- =============================================================================
-- Migration engine: quillProjectToYjsDoc and migrateToCrdtFormat (doc part)
-- =============================================================================

/-- Property access on the settings record. -/
def lookupSetting : List (String × String) → String → Option String
  | [], _ => none
  | e :: rest, k => if e.1 = k then some e.2 else lookupSetting rest k

def keyBlockPath : FieldKey → Option String
  | .blockEntry p => some p
  | _ => none

def keySettingName : FieldKey → Option String
  | .settingEntry k => some k
  | _ => none

/-- The paths currently present in the document's blocks map (the keys
`Y.Map.clear` removes). -/
def blockKeys (s : YState) : Finset String :=
  (s.filter (fun o => (keyBlockPath o.key).isSome)).image
    (fun o => (keyBlockPath o.key).getD "")

/-- The keys currently present in the document's settings map. -/
def settingKeys (s : YState) : Finset String :=
  (s.filter (fun o => (keySettingName o.key).isSome)).image
    (fun o => (keySettingName o.key).getD "")

/-- Tombstone operations for `blocksMap.clear()`, one per present key, with
consecutive stamps. -/
def clearBlockOps (client : Nat) : Nat → List String → List YOp
  | _, [] => []
  | c, p :: rest => mkOp client c (.blockEntry p) .deleted :: clearBlockOps client (c + 1) rest

/-- One write per blocks entry, `blocksMap.set(key, value)`, in entry
order with consecutive stamps. -/
def setBlockOps (client : Nat) : Nat → List (String × BlockMeta) → List YOp
  | _, [] => []
  | c, e :: rest => mkOp client c (.blockEntry e.1) (.block e.2) :: setBlockOps client (c + 1) rest

/-- Tombstone operations for `settingsMap.clear()`. -/
def clearSettingOps (client : Nat) : Nat → List String → List YOp
  | _, [] => []
  | c, k :: rest => mkOp client c (.settingEntry k) .deleted :: clearSettingOps client (c + 1) rest

/-- One write per settings entry, `settingsMap.set(key, value)`. -/
def setSettingOps (client : Nat) : Nat → List (String × String) → List YOp
  | _, [] => []
  | c, e :: rest => mkOp client c (.settingEntry e.1) (.str e.2) :: setSettingOps client (c + 1) rest

/-- `quillProjectToYjsDoc`: bulk-imports a whole project into the document
by whole-field replacement, in source order — name, projectId, createdAt,
updatedAt, blocks (clear the map, then set every entry), characters
(replace the whole array), settings (clear, then set every entry),
arrangement tracks (replace the whole array). Each replacement of a text,
scalar, array or map entry is one stamped write; the writes of one import
carry consecutive clocks starting at `clock0`. -/
def quillProjectToYjsDoc (s : YState) (proj : QuillProjectV) (client clock0 : Nat) :
    YState :=
  let scalarOps : List YOp :=
    [mkOp client clock0 .name (.str proj.name),
     mkOp client (clock0 + 1) .projectId (.str proj.projectId),
     mkOp client (clock0 + 2) .createdAt (.num proj.createdAt),
     mkOp client (clock0 + 3) .updatedAt (.num proj.updatedAt)]
  let cB := clock0 + 4
  let bKeys := (blockKeys s).sort (· ≤ ·)
  let clearB := clearBlockOps client cB bKeys
  let cSetB := cB + bKeys.length
  let setB := setBlockOps client cSetB proj.blocks
  let cChars := cSetB + proj.blocks.length
  let charsOp := mkOp client cChars .charactersRoot (.charList proj.characters)
  let cClearS := cChars + 1
  let sKeys := (settingKeys s).sort (· ≤ ·)
  let clearS := clearSettingOps client cClearS sKeys
  let cSetS := cClearS + sKeys.length
  let setS := setSettingOps client cSetS proj.settings
  let cTracks := cSetS + proj.settings.length
  let tracksOp := mkOp client cTracks .tracksRoot (.trackList proj.arrangementTracks)
  applyUpdate s
    ((scalarOps ++ clearB ++ setB ++ [charsOp] ++ clearS ++ setS ++ [tracksOp]).toFinset)

/-- Document part of `migrateToCrdtFormat`: `createCrdtProject` builds a
fresh document via `createYjsDoc(existingProject.name, docId)` (clocks 0-7
of this client), then `quillProjectToYjsDoc` imports every legacy field
(clocks from 8). -/
def migrateDocState (legacy : QuillProjectV) (docId : String) (client now : Nat) :
    YState :=
  quillProjectToYjsDoc (createYjsDoc legacy.name docId client 0 now) legacy client 8

theorem blockKeys_init (n p : String) (client clock0 now : Nat) :
    blockKeys (initializeYjsDoc ∅ n p client clock0 now) = ∅ := by
  rw [initializeYjsDoc_empty]
  simp [blockKeys, Finset.filter_insert, Finset.filter_singleton, mkOp, keyBlockPath]

theorem settingKeys_init (n p : String) (client clock0 now : Nat) :
    settingKeys (initializeYjsDoc ∅ n p client clock0 now) = ∅ := by
  rw [initializeYjsDoc_empty]
  simp [settingKeys, Finset.filter_insert, Finset.filter_singleton, mkOp, keySettingName]

/-- The operations emitted by the bulk import of `quillProjectToYjsDoc` on
the freshly created document of a migration (no clear tombstones, since the
fresh blocks and settings maps are empty). -/
def migrateOps (legacy : QuillProjectV) (client : Nat) : List YOp :=
  [mkOp client 8 .name (.str legacy.name),
   mkOp client 9 .projectId (.str legacy.projectId),
   mkOp client 10 .createdAt (.num legacy.createdAt),
   mkOp client 11 .updatedAt (.num legacy.updatedAt)] ++
  setBlockOps client 12 legacy.blocks ++
  [mkOp client (12 + legacy.blocks.length) .charactersRoot
    (.charList legacy.characters)] ++
  setSettingOps client (12 + legacy.blocks.length + 1) legacy.settings ++
  [mkOp client (12 + legacy.blocks.length + 1 + legacy.settings.length)
    .tracksRoot (.trackList legacy.arrangementTracks)]

theorem migrateDocState_eq (legacy : QuillProjectV) (docId : String)
    (client now : Nat) :
    migrateDocState legacy docId client now
      = applyUpdate (initializeYjsDoc ∅ legacy.name docId client 0 now)
          (migrateOps legacy client).toFinset := by
  unfold migrateDocState quillProjectToYjsDoc createYjsDoc migrateOps
  rw [blockKeys_init, settingKeys_init]
  simp [clearBlockOps, clearSettingOps]

theorem fieldOps_toFinset (l : List YOp) (k : FieldKey) :
    fieldOps l.toFinset k = (l.filter (fun o => decide (o.key = k))).toFinset := by
  apply Finset.ext
  intro o
  simp [fieldOps, List.mem_toFinset, List.mem_filter]

theorem lwwOf_union_pair {a b : YOp} (hab : stampLe a.stamp b.stamp)
    (hba : ¬ stampLe b.stamp a.stamp) :
    lwwOf (({a} : Finset YOp) ∪ {b}) = {b.value} := by
  have h : ({a} : Finset YOp) ∪ {b} = {a, b} := by
    ext o
    simp
  rw [h]
  exact lwwOf_pair a b hab hba

theorem initOps_name (n p : String) (client clock0 now : Nat) :
    fieldOps (initializeYjsDoc ∅ n p client clock0 now) .name
      = {mkOp client clock0 .name (.str n)} := by
  rw [initializeYjsDoc_empty]
  simp [fieldOps_insert, fieldOps_singleton, mkOp]

theorem initOps_projectId (n p : String) (client clock0 now : Nat) :
    fieldOps (initializeYjsDoc ∅ n p client clock0 now) .projectId
      = {mkOp client (clock0 + 1) .projectId (.str p)} := by
  rw [initializeYjsDoc_empty]
  simp [fieldOps_insert, fieldOps_singleton, mkOp]

theorem initOps_createdAt (n p : String) (client clock0 now : Nat) :
    fieldOps (initializeYjsDoc ∅ n p client clock0 now) .createdAt
      = {mkOp client (clock0 + 2) .createdAt (.num now)} := by
  rw [initializeYjsDoc_empty]
  simp [fieldOps_insert, fieldOps_singleton, mkOp]

theorem initOps_updatedAt (n p : String) (client clock0 now : Nat) :
    fieldOps (initializeYjsDoc ∅ n p client clock0 now) .updatedAt
      = {mkOp client (clock0 + 3) .updatedAt (.num now)} := by
  rw [initializeYjsDoc_empty]
  simp [fieldOps_insert, fieldOps_singleton, mkOp]

theorem initOps_charactersRoot (n p : String) (client clock0 now : Nat) :
    fieldOps (initializeYjsDoc ∅ n p client clock0 now) .charactersRoot
      = {mkOp client (clock0 + 5) .charactersRoot (.charList [])} := by
  rw [initializeYjsDoc_empty]
  simp [fieldOps_insert, fieldOps_singleton, mkOp]

theorem initOps_tracksRoot (n p : String) (client clock0 now : Nat) :
    fieldOps (initializeYjsDoc ∅ n p client clock0 now) .tracksRoot
      = {mkOp client (clock0 + 7) .tracksRoot (.trackList [])} := by
  rw [initializeYjsDoc_empty]
  simp [fieldOps_insert, fieldOps_singleton, mkOp]

theorem initOps_blockEntry (n p : String) (client clock0 now : Nat) (q : String) :
    fieldOps (initializeYjsDoc ∅ n p client clock0 now) (.blockEntry q) = ∅ := by
  rw [initializeYjsDoc_empty]
  simp [fieldOps_insert, fieldOps_singleton, mkOp]

theorem initOps_settingEntry (n p : String) (client clock0 now : Nat) (q : String) :
    fieldOps (initializeYjsDoc ∅ n p client clock0 now) (.settingEntry q) = ∅ := by
  rw [initializeYjsDoc_empty]
  simp [fieldOps_insert, fieldOps_singleton, mkOp]

theorem setBlockOps_filter_of_ne (client : Nat) (k : FieldKey)
    (h : ∀ q, k ≠ .blockEntry q) :
    ∀ (c : Nat) (bs : List (String × BlockMeta)),
      (setBlockOps client c bs).filter (fun o => decide (o.key = k)) = [] := by
  intro c bs
  induction bs generalizing c with
  | nil => rfl
  | cons e rest ih =>
    have hne : FieldKey.blockEntry e.1 ≠ k := fun hk => h e.1 hk.symm
    simp [setBlockOps, List.filter_cons, mkOp, hne, ih]

theorem setSettingOps_filter_of_ne (client : Nat) (k : FieldKey)
    (h : ∀ q, k ≠ .settingEntry q) :
    ∀ (c : Nat) (ss : List (String × String)),
      (setSettingOps client c ss).filter (fun o => decide (o.key = k)) = [] := by
  intro c ss
  induction ss generalizing c with
  | nil => rfl
  | cons e rest ih =>
    have hne : FieldKey.settingEntry e.1 ≠ k := fun hk => h e.1 hk.symm
    simp [setSettingOps, List.filter_cons, mkOp, hne, ih]

theorem lookupBlock_eq_none_of_not_mem :
    ∀ (bs : List (String × BlockMeta)) (p : String),
      p ∉ bs.map Prod.fst → lookupBlock bs p = none := by
  intro bs
  induction bs with
  | nil => intro p _; rfl
  | cons e rest ih =>
    intro p hmem
    have h1 : e.1 ≠ p := fun h => hmem (by simp [h])
    have h2 : p ∉ rest.map Prod.fst := fun h => hmem (by simp [h])
    simp [lookupBlock, h1, ih p h2]

theorem lookupSetting_eq_none_of_not_mem :
    ∀ (ss : List (String × String)) (k : String),
      k ∉ ss.map Prod.fst → lookupSetting ss k = none := by
  intro ss
  induction ss with
  | nil => intro k _; rfl
  | cons e rest ih =>
    intro k hmem
    have h1 : e.1 ≠ k := fun h => hmem (by simp [h])
    have h2 : k ∉ rest.map Prod.fst := fun h => hmem (by simp [h])
    simp [lookupSetting, h1, ih k h2]

theorem setBlockOps_filter_none (client : Nat) (p : String) :
    ∀ (c : Nat) (bs : List (String × BlockMeta)), lookupBlock bs p = none →
      (setBlockOps client c bs).filter
        (fun o => decide (o.key = FieldKey.blockEntry p)) = [] := by
  intro c bs
  induction bs generalizing c with
  | nil => intro _; rfl
  | cons e rest ih =>
    intro hlook
    rw [lookupBlock] at hlook
    by_cases hq : e.1 = p
    · rw [if_pos hq] at hlook; cases hlook
    · rw [if_neg hq] at hlook
      have hne : FieldKey.blockEntry e.1 ≠ FieldKey.blockEntry p := by
        intro h; exact hq (by injection h)
      simp [setBlockOps, List.filter_cons, mkOp, hne, ih _ hlook]

theorem setSettingOps_filter_none (client : Nat) (k : String) :
    ∀ (c : Nat) (ss : List (String × String)), lookupSetting ss k = none →
      (setSettingOps client c ss).filter
        (fun o => decide (o.key = FieldKey.settingEntry k)) = [] := by
  intro c ss
  induction ss generalizing c with
  | nil => intro _; rfl
  | cons e rest ih =>
    intro hlook
    rw [lookupSetting] at hlook
    by_cases hq : e.1 = k
    · rw [if_pos hq] at hlook; cases hlook
    · rw [if_neg hq] at hlook
      have hne : FieldKey.settingEntry e.1 ≠ FieldKey.settingEntry k := by
        intro h; exact hq (by injection h)
      simp [setSettingOps, List.filter_cons, mkOp, hne, ih _ hlook]

theorem setBlockOps_filter_some (client : Nat) (p : String) (m : BlockMeta) :
    ∀ (c : Nat) (bs : List (String × BlockMeta)), (bs.map Prod.fst).Nodup →
      lookupBlock bs p = some m →
      ∃ c2, (setBlockOps client c bs).filter
        (fun o => decide (o.key = FieldKey.blockEntry p))
        = [mkOp client c2 (.blockEntry p) (.block m)] := by
  intro c bs
  induction bs generalizing c with
  | nil => intro _ hlook; cases hlook
  | cons e rest ih =>
    intro hnd hlook
    rw [lookupBlock] at hlook
    by_cases hq : e.1 = p
    · rw [if_pos hq] at hlook
      obtain rfl : e.2 = m := by injection hlook
      have hnot : p ∉ rest.map Prod.fst := hq ▸ (List.nodup_cons.mp hnd).1
      have hrest := setBlockOps_filter_none client p (c + 1) rest
        (lookupBlock_eq_none_of_not_mem rest p hnot)
      refine ⟨c, ?_⟩
      simp [setBlockOps, List.filter_cons, mkOp, hq, hrest]
    · rw [if_neg hq] at hlook
      have hne : FieldKey.blockEntry e.1 ≠ FieldKey.blockEntry p := by
        intro h; exact hq (by injection h)
      obtain ⟨c2, hc2⟩ := ih (c + 1) (List.nodup_cons.mp hnd).2 hlook
      exact ⟨c2, by simp [setBlockOps, List.filter_cons, mkOp, hne, hc2]⟩

theorem setSettingOps_filter_some (client : Nat) (k : String) (v : String) :
    ∀ (c : Nat) (ss : List (String × String)), (ss.map Prod.fst).Nodup →
      lookupSetting ss k = some v →
      ∃ c2, (setSettingOps client c ss).filter
        (fun o => decide (o.key = FieldKey.settingEntry k))
        = [mkOp client c2 (.settingEntry k) (.str v)] := by
  intro c ss
  induction ss generalizing c with
  | nil => intro _ hlook; cases hlook
  | cons e rest ih =>
    intro hnd hlook
    rw [lookupSetting] at hlook
    by_cases hq : e.1 = k
    · rw [if_pos hq] at hlook
      obtain rfl : e.2 = v := by injection hlook
      have hnot : k ∉ rest.map Prod.fst := hq ▸ (List.nodup_cons.mp hnd).1
      have hrest := setSettingOps_filter_none client k (c + 1) rest
        (lookupSetting_eq_none_of_not_mem rest k hnot)
      refine ⟨c, ?_⟩
      simp [setSettingOps, List.filter_cons, mkOp, hq, hrest]
    · rw [if_neg hq] at hlook
      have hne : FieldKey.settingEntry e.1 ≠ FieldKey.settingEntry k := by
        intro h; exact hq (by injection h)
      obtain ⟨c2, hc2⟩ := ih (c + 1) (List.nodup_cons.mp hnd).2 hlook
      exact ⟨c2, by simp [setSettingOps, List.filter_cons, mkOp, hne, hc2]⟩

-- =============================================================================
-- Migration engine: migrateFilesToDocsFolder (file part)
-- =============================================================================

/-- `path.startsWith(prefixStr)` of JS, as char-list prefix. -/
def strStartsWith (s pre : String) : Bool := pre.data.isPrefixOf s.data

/-- `path.endsWith(suffix)` of JS, as char-list suffix. -/
def strEndsWith (s post : String) : Bool := post.data.isSuffixOf s.data

/-- `findMarkdownFiles` over the scanned folder tree: all file paths ending
in `.md`, in scan order. The content filesystem of the project folder is an
association list path ↦ text with unique keys. -/
def mdFilePaths (files : List (String × String)) : List String :=
  (files.map Prod.fst).filter (fun p => strEndsWith p ".md")

/-- `readTextFile` on the content filesystem. -/
def fsRead : List (String × String) → String → Option String
  | [], _ => none
  | e :: rest, p => if e.1 = p then some e.2 else fsRead rest p

/-- `writeTextFile`: replaces the content when the path exists, creates the
file otherwise. -/
def fsWrite : List (String × String) → String → String → List (String × String)
  | [], p, c => [(p, c)]
  | e :: rest, p, c => if e.1 = p then (p, c) :: rest else e :: fsWrite rest p c

/-- `deleteFile`. -/
def fsDelete : List (String × String) → String → List (String × String)
  | [], _ => []
  | e :: rest, p => if e.1 = p then rest else e :: fsDelete rest p

/-- One iteration of the move loop of `migrateFilesToDocsFolder`: skip
paths already under `docs/` and the `.quill` file; read the content (a
collaborator failure — modelled by membership in `faulty` — or a missing
file is caught and logged as a warning, and the loop continues); write the
content at `docs/<path>` and delete the original when the new path
differs. -/
def moveOne (faulty : List String) (fs : List (String × String)) (p : String) :
    List (String × String) × Option String :=
  if strStartsWith p "docs/" then (fs, none)
  else if p = ".quill" then (fs, none)
  else if p ∈ faulty then (fs, some p)
  else
    match fsRead fs p with
    | none => (fs, some p)
    | some content =>
      let newPath := "docs/" ++ p
      let fs2 := fsWrite fs newPath content
      (if newPath = p then fs2 else fsDelete fs2 p, none)

/-- The move loop over the markdown paths found by the initial scan,
carrying the filesystem and the warnings logged so far. -/
def migrateLoop (faulty : List String) :
    List (String × String) × List String → List String →
    List (String × String) × List String
  | acc, [] => acc
  | acc, p :: rest =>
    migrateLoop faulty
      ((moveOne faulty acc.1 p).1, acc.2 ++ ((moveOne faulty acc.1 p).2).toList) rest

/-- `migrateFilesToDocsFolder`: scans once, then moves every markdown file
into `docs/`, returning the resulting filesystem and the warned paths. -/
def migrateFilesToDocsFolder (files : List (String × String))
    (faulty : List String) : List (String × String) × List String :=
  migrateLoop faulty (files, []) (mdFilePaths files)

theorem docs_append_ne (p : String) : ("docs/" ++ p) ≠ p := by
  intro h
  have h2 : ("docs/" ++ p).data = p.data := by rw [h]
  rw [String.data_append] at h2
  have h3 := congrArg List.length h2
  simp at h3
  omega

theorem strStartsWith_docs_append (q : String) :
    strStartsWith ("docs/" ++ q) "docs/" = true := by
  simp [strStartsWith, String.data_append, List.isPrefixOf_iff_prefix]

theorem ne_docs_append_of_not_startsWith {p : String}
    (h : strStartsWith p "docs/" = false) (q : String) : p ≠ "docs/" ++ q := by
  intro hq
  rw [hq, strStartsWith_docs_append] at h
  cases h

theorem docs_append_injective {a b : String} (h : "docs/" ++ a = "docs/" ++ b) :
    a = b := by
  have h2 : ("docs/" ++ a).data = ("docs/" ++ b).data := by rw [h]
  rw [String.data_append, String.data_append] at h2
  have h3 := List.append_cancel_left h2
  cases a
  cases b
  exact congrArg String.mk h3

theorem fsRead_fsWrite_self (fs : List (String × String)) (p c : String) :
    fsRead (fsWrite fs p c) p = some c := by
  induction fs with
  | nil => simp [fsWrite, fsRead]
  | cons e rest ih =>
    by_cases h : e.1 = p
    · simp [fsWrite, h, fsRead]
    · simp [fsWrite, h, fsRead, ih]

theorem fsRead_fsWrite_ne (fs : List (String × String)) (p c x : String)
    (h : x ≠ p) : fsRead (fsWrite fs p c) x = fsRead fs x := by
  induction fs with
  | nil =>
    show fsRead [(p, c)] x = none
    rw [fsRead, if_neg (fun hh : p = x => h hh.symm)]
    rfl
  | cons e rest ih =>
    by_cases he : e.1 = p
    · subst he
      rw [fsWrite, if_pos rfl, fsRead, fsRead,
        if_neg (fun hh : e.1 = x => h hh.symm), if_neg (fun hh : e.1 = x => h hh.symm)]
    · rw [fsWrite, if_neg he, fsRead, fsRead]
      by_cases hx : e.1 = x
      · rw [if_pos hx, if_pos hx]
      · rw [if_neg hx, if_neg hx]
        exact ih

theorem mem_keys_fsWrite (fs : List (String × String)) (p c x : String) :
    x ∈ (fsWrite fs p c).map Prod.fst ↔ x ∈ fs.map Prod.fst ∨ x = p := by
  induction fs with
  | nil => simp [fsWrite]
  | cons e rest ih =>
    by_cases he : e.1 = p
    · subst he
      simp [fsWrite]
      tauto
    · simp [fsWrite, he, ih]
      tauto

theorem nodup_fsWrite (fs : List (String × String)) (p c : String)
    (hnd : (fs.map Prod.fst).Nodup) : ((fsWrite fs p c).map Prod.fst).Nodup := by
  induction fs with
  | nil => simp [fsWrite]
  | cons e rest ih =>
    rw [List.map_cons, List.nodup_cons] at hnd
    by_cases he : e.1 = p
    · subst he
      simpa [fsWrite, List.nodup_cons] using hnd
    · rw [fsWrite, if_neg he, List.map_cons, List.nodup_cons]
      refine ⟨?_, ih hnd.2⟩
      rw [mem_keys_fsWrite]
      rintro (h | h)
      · exact hnd.1 h
      · exact he h

theorem fsRead_eq_none_of_not_mem_keys :
    ∀ (fs : List (String × String)) (p : String),
      p ∉ fs.map Prod.fst → fsRead fs p = none := by
  intro fs
  induction fs with
  | nil => intro p _; rfl
  | cons e rest ih =>
    intro p hmem
    have h1 : e.1 ≠ p := fun h => hmem (by simp [h])
    have h2 : p ∉ rest.map Prod.fst := fun h => hmem (by simp [h])
    rw [fsRead, if_neg h1]
    exact ih p h2

theorem fsRead_fsDelete_self (fs : List (String × String)) (p : String)
    (hnd : (fs.map Prod.fst).Nodup) : fsRead (fsDelete fs p) p = none := by
  induction fs with
  | nil => rfl
  | cons e rest ih =>
    rw [List.map_cons, List.nodup_cons] at hnd
    by_cases he : e.1 = p
    · rw [fsDelete, if_pos he]
      exact fsRead_eq_none_of_not_mem_keys rest p (he ▸ hnd.1)
    · rw [fsDelete, if_neg he, fsRead, if_neg he]
      exact ih hnd.2

theorem fsRead_fsDelete_ne (fs : List (String × String)) (p x : String)
    (h : x ≠ p) : fsRead (fsDelete fs p) x = fsRead fs x := by
  induction fs with
  | nil => rfl
  | cons e rest ih =>
    by_cases he : e.1 = p
    · subst he
      rw [fsDelete, if_pos rfl, fsRead, if_neg (fun hx : e.1 = x => h (hx ▸ rfl))]
    · rw [fsDelete, if_neg he, fsRead, fsRead]
      by_cases hx : e.1 = x
      · rw [if_pos hx, if_pos hx]
      · rw [if_neg hx, if_neg hx]
        exact ih

theorem mem_keys_fsDelete (fs : List (String × String)) (p x : String) :
    x ∈ (fsDelete fs p).map Prod.fst → x ∈ fs.map Prod.fst := by
  induction fs with
  | nil => intro h; exact h
  | cons e rest ih =>
    by_cases he : e.1 = p
    · rw [fsDelete, if_pos he]
      intro h
      rw [List.map_cons]
      exact List.mem_cons_of_mem _ h
    · rw [fsDelete, if_neg he, List.map_cons, List.map_cons]
      intro h
      rcases List.mem_cons.mp h with h | h
      · exact List.mem_cons.mpr (Or.inl h)
      · exact List.mem_cons_of_mem _ (ih h)

theorem nodup_fsDelete (fs : List (String × String)) (p : String)
    (hnd : (fs.map Prod.fst).Nodup) : ((fsDelete fs p).map Prod.fst).Nodup := by
  induction fs with
  | nil => simp [fsDelete]
  | cons e rest ih =>
    rw [List.map_cons, List.nodup_cons] at hnd
    by_cases he : e.1 = p
    · rw [fsDelete, if_pos he]
      exact hnd.2
    · rw [fsDelete, if_neg he, List.map_cons, List.nodup_cons]
      exact ⟨fun h => hnd.1 (mem_keys_fsDelete rest p e.1 h), ih hnd.2⟩

theorem migrateOps_filter_name (legacy : QuillProjectV) (client : Nat) :
    (migrateOps legacy client).filter (fun o => decide (o.key = FieldKey.name))
      = [mkOp client 8 .name (.str legacy.name)] := by
  simp [migrateOps, List.filter_append, List.filter_cons, mkOp,
    setBlockOps_filter_of_ne client FieldKey.name (fun q h => FieldKey.noConfusion h),
    setSettingOps_filter_of_ne client FieldKey.name (fun q h => FieldKey.noConfusion h)]

theorem migrateOps_filter_projectId (legacy : QuillProjectV) (client : Nat) :
    (migrateOps legacy client).filter (fun o => decide (o.key = FieldKey.projectId))
      = [mkOp client 9 .projectId (.str legacy.projectId)] := by
  simp [migrateOps, List.filter_append, List.filter_cons, mkOp,
    setBlockOps_filter_of_ne client FieldKey.projectId (fun q h => FieldKey.noConfusion h),
    setSettingOps_filter_of_ne client FieldKey.projectId (fun q h => FieldKey.noConfusion h)]

theorem migrateOps_filter_createdAt (legacy : QuillProjectV) (client : Nat) :
    (migrateOps legacy client).filter (fun o => decide (o.key = FieldKey.createdAt))
      = [mkOp client 10 .createdAt (.num legacy.createdAt)] := by
  simp [migrateOps, List.filter_append, List.filter_cons, mkOp,
    setBlockOps_filter_of_ne client FieldKey.createdAt (fun q h => FieldKey.noConfusion h),
    setSettingOps_filter_of_ne client FieldKey.createdAt (fun q h => FieldKey.noConfusion h)]

theorem migrateOps_filter_updatedAt (legacy : QuillProjectV) (client : Nat) :
    (migrateOps legacy client).filter (fun o => decide (o.key = FieldKey.updatedAt))
      = [mkOp client 11 .updatedAt (.num legacy.updatedAt)] := by
  simp [migrateOps, List.filter_append, List.filter_cons, mkOp,
    setBlockOps_filter_of_ne client FieldKey.updatedAt (fun q h => FieldKey.noConfusion h),
    setSettingOps_filter_of_ne client FieldKey.updatedAt (fun q h => FieldKey.noConfusion h)]

theorem migrateOps_filter_charactersRoot (legacy : QuillProjectV) (client : Nat) :
    (migrateOps legacy client).filter (fun o => decide (o.key = FieldKey.charactersRoot))
      = [mkOp client (12 + legacy.blocks.length) .charactersRoot
          (.charList legacy.characters)] := by
  simp [migrateOps, List.filter_append, List.filter_cons, mkOp,
    setBlockOps_filter_of_ne client FieldKey.charactersRoot (fun q h => FieldKey.noConfusion h),
    setSettingOps_filter_of_ne client FieldKey.charactersRoot (fun q h => FieldKey.noConfusion h)]

theorem migrateOps_filter_tracksRoot (legacy : QuillProjectV) (client : Nat) :
    (migrateOps legacy client).filter (fun o => decide (o.key = FieldKey.tracksRoot))
      = [mkOp client (12 + legacy.blocks.length + 1 + legacy.settings.length)
          .tracksRoot (.trackList legacy.arrangementTracks)] := by
  simp [migrateOps, List.filter_append, List.filter_cons, mkOp,
    setBlockOps_filter_of_ne client FieldKey.tracksRoot (fun q h => FieldKey.noConfusion h),
    setSettingOps_filter_of_ne client FieldKey.tracksRoot (fun q h => FieldKey.noConfusion h)]

theorem migrateOps_filter_blockEntry (legacy : QuillProjectV) (client : Nat)
    (p : String) (m : BlockMeta) (hbk : (legacy.blocks.map Prod.fst).Nodup)
    (hlook : lookupBlock legacy.blocks p = some m) :
    ∃ c2, (migrateOps legacy client).filter
        (fun o => decide (o.key = FieldKey.blockEntry p))
      = [mkOp client c2 (.blockEntry p) (.block m)] := by
  obtain ⟨c2, hc2⟩ := setBlockOps_filter_some client p m 12 legacy.blocks hbk hlook
  refine ⟨c2, ?_⟩
  simp [migrateOps, List.filter_append, List.filter_cons, mkOp, hc2,
    setSettingOps_filter_of_ne client (FieldKey.blockEntry p)
      (fun q h => FieldKey.noConfusion h)]

theorem migrateOps_filter_settingEntry (legacy : QuillProjectV) (client : Nat)
    (k v : String) (hsk : (legacy.settings.map Prod.fst).Nodup)
    (hlook : lookupSetting legacy.settings k = some v) :
    ∃ c2, (migrateOps legacy client).filter
        (fun o => decide (o.key = FieldKey.settingEntry k))
      = [mkOp client c2 (.settingEntry k) (.str v)] := by
  obtain ⟨c2, hc2⟩ := setSettingOps_filter_some client k v
    (12 + legacy.blocks.length + 1) legacy.settings hsk hlook
  refine ⟨c2, ?_⟩
  simp [migrateOps, List.filter_append, List.filter_cons, mkOp, hc2,
    setBlockOps_filter_of_ne client (FieldKey.settingEntry k)
      (fun q h => FieldKey.noConfusion h)]

theorem moveOne_skip_docs (faulty : List String) (fs : List (String × String))
    (q : String) (h : strStartsWith q "docs/" = true) :
    moveOne faulty fs q = (fs, none) := by
  rw [moveOne, if_pos h]

theorem moveOne_preserves (faulty : List String) (fs : List (String × String))
    (q x : String) (hx1 : x ≠ q) (hx2 : x ≠ "docs/" ++ q) :
    fsRead (moveOne faulty fs q).1 x = fsRead fs x := by
  rw [moveOne]
  split_ifs with h1 h2 h3
  · rfl
  · rfl
  · rfl
  · cases hr : fsRead fs q with
    | none => rfl
    | some content =>
      simp only
      rw [if_neg (docs_append_ne q), fsRead_fsDelete_ne _ _ _ hx1,
        fsRead_fsWrite_ne _ _ _ _ hx2]

theorem moveOne_nodup (faulty : List String) (fs : List (String × String))
    (q : String) (hnd : (fs.map Prod.fst).Nodup) :
    (((moveOne faulty fs q).1).map Prod.fst).Nodup := by
  rw [moveOne]
  split_ifs with h1 h2 h3
  · exact hnd
  · exact hnd
  · exact hnd
  · cases hr : fsRead fs q with
    | none => exact hnd
    | some content =>
      simp only
      rw [if_neg (docs_append_ne q)]
      exact nodup_fsDelete _ _ (nodup_fsWrite _ _ _ hnd)

theorem moveOne_docs_isSome (faulty : List String) (fs : List (String × String))
    (q x : String) (hq : x ≠ q) (hs : (fsRead fs x).isSome = true) :
    (fsRead (moveOne faulty fs q).1 x).isSome = true := by
  rw [moveOne]
  split_ifs with h1 h2 h3
  · exact hs
  · exact hs
  · exact hs
  · cases hr : fsRead fs q with
    | none => exact hs
    | some content =>
      simp only
      rw [if_neg (docs_append_ne q), fsRead_fsDelete_ne _ _ _ hq]
      by_cases hx : x = "docs/" ++ q
      · rw [hx, fsRead_fsWrite_self]
        rfl
      · rw [fsRead_fsWrite_ne _ _ _ _ hx]
        exact hs

theorem moveOne_active (faulty : List String) (fs : List (String × String))
    (p c : String) (hd : strStartsWith p "docs/" = false) (hq : p ≠ ".quill")
    (hf : p ∉ faulty) (hc : fsRead fs p = some c)
    (hnd : (fs.map Prod.fst).Nodup) :
    fsRead (moveOne faulty fs p).1 ("docs/" ++ p) = some c ∧
    fsRead (moveOne faulty fs p).1 p = none ∧
    (moveOne faulty fs p).2 = none := by
  have hd2 : ¬ strStartsWith p "docs/" = true := by rw [hd]; exact Bool.false_ne_true
  rw [moveOne, if_neg hd2, if_neg hq, if_neg hf, hc]
  simp only
  rw [if_neg (docs_append_ne p)]
  refine ⟨?_, ?_, trivial⟩
  · rw [fsRead_fsDelete_ne _ _ _ (docs_append_ne p), fsRead_fsWrite_self]
  · exact fsRead_fsDelete_self _ _ (nodup_fsWrite _ _ _ hnd)

theorem moveOne_faulty_eq (faulty : List String) (fs : List (String × String))
    (p : String) (hd : strStartsWith p "docs/" = false) (hq : p ≠ ".quill")
    (hf : p ∈ faulty) :
    moveOne faulty fs p = (fs, some p) := by
  have hd2 : ¬ strStartsWith p "docs/" = true := by rw [hd]; exact Bool.false_ne_true
  rw [moveOne, if_neg hd2, if_neg hq, if_pos hf]

theorem moveOne_warn_conditions (faulty : List String) (fs : List (String × String))
    (q w : String) (h : (moveOne faulty fs q).2 = some w) :
    w = q ∧ strStartsWith q "docs/" = false ∧ q ≠ ".quill" := by
  by_cases h1 : strStartsWith q "docs/" = true
  · rw [moveOne, if_pos h1] at h
    cases h
  · have h1f : strStartsWith q "docs/" = false := by
      cases hb : strStartsWith q "docs/"
      · rfl
      · exact absurd hb h1
    by_cases h2 : q = ".quill"
    · rw [moveOne, if_neg h1, if_pos h2] at h
      cases h
    · by_cases h3 : q ∈ faulty
      · rw [moveOne, if_neg h1, if_neg h2, if_pos h3] at h
        exact ⟨(Option.some.inj h).symm, h1f, h2⟩
      · rw [moveOne, if_neg h1, if_neg h2, if_neg h3] at h
        cases hr : fsRead fs q with
        | none =>
          rw [hr] at h
          exact ⟨(Option.some.inj h).symm, h1f, h2⟩
        | some content =>
          rw [hr] at h
          simp at h

theorem migrateLoop_frame (faulty : List String) :
    ∀ (paths : List String) (acc : List (String × String) × List String)
      (x : String),
      (∀ q ∈ paths, strStartsWith q "docs/" = true ∨
        (x ≠ q ∧ x ≠ "docs/" ++ q)) →
      fsRead (migrateLoop faulty acc paths).1 x = fsRead acc.1 x := by
  intro paths
  induction paths with
  | nil => intro acc x _; rfl
  | cons q rest ih =>
    intro acc x hx
    rw [migrateLoop]
    rw [ih _ x (fun q2 hq2 => hx q2 (List.mem_cons_of_mem _ hq2))]
    rcases hx q (List.mem_cons_self _ _) with hq | ⟨hq1, hq2⟩
    · rw [moveOne_skip_docs _ _ _ hq]
    · exact moveOne_preserves _ _ _ _ hq1 hq2

theorem migrateLoop_nodup (faulty : List String) :
    ∀ (paths : List String) (acc : List (String × String) × List String),
      ((acc.1).map Prod.fst).Nodup →
      (((migrateLoop faulty acc paths).1).map Prod.fst).Nodup := by
  intro paths
  induction paths with
  | nil => intro acc h; exact h
  | cons q rest ih =>
    intro acc h
    rw [migrateLoop]
    exact ih _ (moveOne_nodup _ _ _ h)

theorem migrateLoop_warn_mono (faulty : List String) :
    ∀ (paths : List String) (acc : List (String × String) × List String)
      (w : String), w ∈ acc.2 → w ∈ (migrateLoop faulty acc paths).2 := by
  intro paths
  induction paths with
  | nil => intro acc w h; exact h
  | cons q rest ih =>
    intro acc w h
    rw [migrateLoop]
    exact ih _ w (List.mem_append.mpr (Or.inl h))

theorem migrateLoop_warn_mem (faulty : List String) :
    ∀ (paths : List String) (acc : List (String × String) × List String)
      (x : String), x ∈ (migrateLoop faulty acc paths).2 →
      x ∈ acc.2 ∨ (x ∈ paths ∧ strStartsWith x "docs/" = false ∧ x ≠ ".quill") := by
  intro paths
  induction paths with
  | nil => intro acc x h; exact Or.inl h
  | cons q rest ih =>
    intro acc x h
    rw [migrateLoop] at h
    rcases ih _ x h with h2 | ⟨hmem, hrest⟩
    · rcases List.mem_append.mp h2 with h3 | h3
      · exact Or.inl h3
      · cases hw : (moveOne faulty acc.1 q).2 with
        | none => rw [hw] at h3; cases h3
        | some w =>
          rw [hw] at h3
          rcases List.mem_singleton.mp (by simpa using h3) with rfl
          obtain ⟨rfl, hc1, hc2⟩ := moveOne_warn_conditions faulty acc.1 q x hw
          exact Or.inr ⟨List.mem_cons_self _ _, hc1, hc2⟩
    · exact Or.inr ⟨List.mem_cons_of_mem _ hmem, hrest⟩

theorem migrateLoop_docs_isSome (faulty : List String) :
    ∀ (paths : List String) (acc : List (String × String) × List String)
      (x : String), strStartsWith x "docs/" = true →
      (fsRead acc.1 x).isSome = true →
      (fsRead (migrateLoop faulty acc paths).1 x).isSome = true := by
  intro paths
  induction paths with
  | nil => intro acc x _ h; exact h
  | cons q rest ih =>
    intro acc x hx h
    rw [migrateLoop]
    refine ih _ x hx ?_
    by_cases hq : strStartsWith q "docs/" = true
    · rw [moveOne_skip_docs _ _ _ hq]
      exact h
    · have hxq : x ≠ q := by
        intro he
        exact hq (he ▸ hx)
      exact moveOne_docs_isSome _ _ _ _ hxq h

theorem migrate_view_name (legacy : QuillProjectV) (docId : String)
    (client now : Nat) :
    fieldVals (migrateDocState legacy docId client now) .name
      = {YValue.str legacy.name} := by
  rw [migrateDocState_eq]
  simp only [applyUpdate]
  rw [fieldVals, fieldOps_union, fieldOps_toFinset, initOps_name,
    migrateOps_filter_name]
  exact lwwOf_union_pair (by simp [stampLe, mkOp]) (by simp [stampLe, mkOp])

theorem migrate_view_projectId (legacy : QuillProjectV) (docId : String)
    (client now : Nat) :
    fieldVals (migrateDocState legacy docId client now) .projectId
      = {YValue.str legacy.projectId} := by
  rw [migrateDocState_eq]
  simp only [applyUpdate]
  rw [fieldVals, fieldOps_union, fieldOps_toFinset, initOps_projectId,
    migrateOps_filter_projectId]
  exact lwwOf_union_pair (by simp [stampLe, mkOp]) (by simp [stampLe, mkOp])

theorem migrate_view_createdAt (legacy : QuillProjectV) (docId : String)
    (client now : Nat) :
    fieldVals (migrateDocState legacy docId client now) .createdAt
      = {YValue.num legacy.createdAt} := by
  rw [migrateDocState_eq]
  simp only [applyUpdate]
  rw [fieldVals, fieldOps_union, fieldOps_toFinset, initOps_createdAt,
    migrateOps_filter_createdAt]
  exact lwwOf_union_pair (by simp [stampLe, mkOp]) (by simp [stampLe, mkOp])

theorem migrate_view_updatedAt (legacy : QuillProjectV) (docId : String)
    (client now : Nat) :
    fieldVals (migrateDocState legacy docId client now) .updatedAt
      = {YValue.num legacy.updatedAt} := by
  rw [migrateDocState_eq]
  simp only [applyUpdate]
  rw [fieldVals, fieldOps_union, fieldOps_toFinset, initOps_updatedAt,
    migrateOps_filter_updatedAt]
  exact lwwOf_union_pair (by simp [stampLe, mkOp]) (by simp [stampLe, mkOp])

theorem migrate_view_characters (legacy : QuillProjectV) (docId : String)
    (client now : Nat) :
    fieldVals (migrateDocState legacy docId client now) .charactersRoot
      = {YValue.charList legacy.characters} := by
  rw [migrateDocState_eq]
  simp only [applyUpdate]
  rw [fieldVals, fieldOps_union, fieldOps_toFinset, initOps_charactersRoot,
    migrateOps_filter_charactersRoot]
  exact lwwOf_union_pair (by simp [stampLe, mkOp]; omega)
    (by simp [stampLe, mkOp]; omega)

theorem migrate_view_tracks (legacy : QuillProjectV) (docId : String)
    (client now : Nat) :
    fieldVals (migrateDocState legacy docId client now) .tracksRoot
      = {YValue.trackList legacy.arrangementTracks} := by
  rw [migrateDocState_eq]
  simp only [applyUpdate]
  rw [fieldVals, fieldOps_union, fieldOps_toFinset, initOps_tracksRoot,
    migrateOps_filter_tracksRoot]
  exact lwwOf_union_pair (by simp [stampLe, mkOp]; omega)
    (by simp [stampLe, mkOp]; omega)

theorem migrate_view_block (legacy : QuillProjectV) (docId : String)
    (client now : Nat) (p : String) (m : BlockMeta)
    (hbk : (legacy.blocks.map Prod.fst).Nodup)
    (hlook : lookupBlock legacy.blocks p = some m) :
    fieldVals (migrateDocState legacy docId client now) (.blockEntry p)
      = {YValue.block m} := by
  obtain ⟨c2, hc2⟩ := migrateOps_filter_blockEntry legacy client p m hbk hlook
  rw [migrateDocState_eq]
  simp only [applyUpdate]
  rw [fieldVals, fieldOps_union, fieldOps_toFinset, initOps_blockEntry, hc2]
  rw [Finset.empty_union]
  exact lwwOf_singleton _

theorem migrate_view_setting (legacy : QuillProjectV) (docId : String)
    (client now : Nat) (k v : String)
    (hsk : (legacy.settings.map Prod.fst).Nodup)
    (hlook : lookupSetting legacy.settings k = some v) :
    fieldVals (migrateDocState legacy docId client now) (.settingEntry k)
      = {YValue.str v} := by
  obtain ⟨c2, hc2⟩ := migrateOps_filter_settingEntry legacy client k v hsk hlook
  rw [migrateDocState_eq]
  simp only [applyUpdate]
  rw [fieldVals, fieldOps_union, fieldOps_toFinset, initOps_settingEntry, hc2]
  rw [Finset.empty_union]
  exact lwwOf_singleton _

theorem migrateLoop_moved (faulty : List String) :
    ∀ (paths : List String), paths.Nodup →
      ∀ (acc : List (String × String) × List String),
        ((acc.1).map Prod.fst).Nodup →
        ∀ (p c : String), p ∈ paths →
          strStartsWith p "docs/" = false → p ≠ ".quill" → p ∉ faulty →
          fsRead acc.1 p = some c →
          fsRead (migrateLoop faulty acc paths).1 ("docs/" ++ p) = some c ∧
          fsRead (migrateLoop faulty acc paths).1 p = none := by
  intro paths
  induction paths with
  | nil => intro _ acc _ p c hmem; cases hmem
  | cons q rest ih =>
    intro hnd acc hacc p c hmem hd hq hf hc
    rw [migrateLoop]
    rcases List.mem_cons.mp hmem with rfl | hmem2
    · obtain ⟨m1, m2, _⟩ := moveOne_active faulty acc.1 p c hd hq hf hc hacc
      have hrest : p ∉ rest := (List.nodup_cons.mp hnd).1
      constructor
      · rw [migrateLoop_frame faulty rest _ ("docs/" ++ p) ?_]
        · exact m1
        · intro q2 hq2
          by_cases hdq2 : strStartsWith q2 "docs/" = true
          · exact Or.inl hdq2
          · refine Or.inr ⟨?_, ?_⟩
            · intro he
              rw [← he] at hdq2
              exact hdq2 (strStartsWith_docs_append p)
            · intro he
              exact hrest (by rw [docs_append_injective he]; exact hq2)
      · rw [migrateLoop_frame faulty rest _ p ?_]
        · exact m2
        · intro q2 hq2
          by_cases hdq2 : strStartsWith q2 "docs/" = true
          · exact Or.inl hdq2
          · exact Or.inr ⟨fun he => hrest (by rw [he]; exact hq2),
              ne_docs_append_of_not_startsWith hd q2⟩
    · have hqp : q ≠ p := fun he => (List.nodup_cons.mp hnd).1 (by rw [he]; exact hmem2)
      have hpres : fsRead (moveOne faulty acc.1 q).1 p = fsRead acc.1 p := by
        by_cases hdq : strStartsWith q "docs/" = true
        · rw [moveOne_skip_docs _ _ _ hdq]
        · exact moveOne_preserves _ _ _ _ (fun he => hqp he.symm)
            (ne_docs_append_of_not_startsWith hd q)
      exact ih (List.nodup_cons.mp hnd).2 _ (moveOne_nodup _ _ _ hacc) p c hmem2
        hd hq hf (by rw [hpres]; exact hc)

theorem migrateLoop_faulty_logged (faulty : List String) :
    ∀ (paths : List String), paths.Nodup →
      ∀ (acc : List (String × String) × List String) (p : String), p ∈ paths →
        strStartsWith p "docs/" = false → p ≠ ".quill" → p ∈ faulty →
        p ∈ (migrateLoop faulty acc paths).2 ∧
        fsRead (migrateLoop faulty acc paths).1 p = fsRead acc.1 p := by
  intro paths
  induction paths with
  | nil => intro _ acc p hmem; cases hmem
  | cons q rest ih =>
    intro hnd acc p hmem hd hq hf
    rw [migrateLoop]
    rcases List.mem_cons.mp hmem with rfl | hmem2
    · rw [moveOne_faulty_eq faulty acc.1 p hd hq hf]
      have hrest : p ∉ rest := (List.nodup_cons.mp hnd).1
      constructor
      · exact migrateLoop_warn_mono faulty rest _ p
          (List.mem_append.mpr (Or.inr (List.mem_singleton.mpr rfl)))
      · rw [migrateLoop_frame faulty rest _ p ?_]
        · intro q2 hq2
          by_cases hdq2 : strStartsWith q2 "docs/" = true
          · exact Or.inl hdq2
          · exact Or.inr ⟨fun he => hrest (by rw [he]; exact hq2),
              ne_docs_append_of_not_startsWith hd q2⟩
    · have hqp : q ≠ p := fun he => (List.nodup_cons.mp hnd).1 (by rw [he]; exact hmem2)
      have hpres : fsRead (moveOne faulty acc.1 q).1 p = fsRead acc.1 p := by
        by_cases hdq : strStartsWith q "docs/" = true
        · rw [moveOne_skip_docs _ _ _ hdq]
        · exact moveOne_preserves _ _ _ _ (fun he => hqp he.symm)
            (ne_docs_append_of_not_startsWith hd q)
      obtain ⟨w1, w2⟩ := ih (List.nodup_cons.mp hnd).2 _ p hmem2 hd hq hf
      exact ⟨w1, by rw [w2, hpres]⟩

/-- C9. Migration: the CRDT document produced by `migrateToCrdtFormat`
carries the legacy project's fields by whole-field replacement — name,
projectId, createdAt, updatedAt, every blocks entry (so a legacy entry
`x.md ↦ tags [t1]` yields `blocks[x.md].tags = [t1]`), the characters
list, every settings entry, and the arrangement tracks — and
`migrateFilesToDocsFolder` physically moves every `.md` file into `docs/`
(`x.md` ends up at `docs/x.md` with its content, and is deleted from the
root), skipping files already under `docs/`; a per-file failure is logged
as a warning and migration continues with the remaining files. -/
theorem C9_migration_correct (legacy : QuillProjectV) (docId : String)
    (client now : Nat) (files : List (String × String)) (faulty : List String)
    (hbk : (legacy.blocks.map Prod.fst).Nodup)
    (hsk : (legacy.settings.map Prod.fst).Nodup)
    (hfk : (files.map Prod.fst).Nodup) :
    fieldVals (migrateDocState legacy docId client now) .name
      = {YValue.str legacy.name} ∧
    fieldVals (migrateDocState legacy docId client now) .projectId
      = {YValue.str legacy.projectId} ∧
    fieldVals (migrateDocState legacy docId client now) .createdAt
      = {YValue.num legacy.createdAt} ∧
    fieldVals (migrateDocState legacy docId client now) .updatedAt
      = {YValue.num legacy.updatedAt} ∧
    (∀ p m, lookupBlock legacy.blocks p = some m →
      fieldVals (migrateDocState legacy docId client now) (.blockEntry p)
        = {YValue.block m}) ∧
    fieldVals (migrateDocState legacy docId client now) .charactersRoot
      = {YValue.charList legacy.characters} ∧
    (∀ k v, lookupSetting legacy.settings k = some v →
      fieldVals (migrateDocState legacy docId client now) (.settingEntry k)
        = {YValue.str v}) ∧
    fieldVals (migrateDocState legacy docId client now) .tracksRoot
      = {YValue.trackList legacy.arrangementTracks} ∧
    (∀ p c, p ∈ mdFilePaths files → strStartsWith p "docs/" = false →
      p ≠ ".quill" → p ∉ faulty → fsRead files p = some c →
      fsRead (migrateFilesToDocsFolder files faulty).1 ("docs/" ++ p) = some c ∧
      fsRead (migrateFilesToDocsFolder files faulty).1 p = none) ∧
    (∀ p, p ∈ mdFilePaths files → strStartsWith p "docs/" = false →
      p ≠ ".quill" → p ∈ faulty →
      p ∈ (migrateFilesToDocsFolder files faulty).2 ∧
      fsRead (migrateFilesToDocsFolder files faulty).1 p = fsRead files p) ∧
    (∀ p, strStartsWith p "docs/" = true →
      p ∉ (migrateFilesToDocsFolder files faulty).2 ∧
      ((fsRead files p).isSome = true →
        (fsRead (migrateFilesToDocsFolder files faulty).1 p).isSome = true)) := by
  have hpaths : (mdFilePaths files).Nodup := List.Nodup.filter _ hfk
  refine ⟨migrate_view_name legacy docId client now,
    migrate_view_projectId legacy docId client now,
    migrate_view_createdAt legacy docId client now,
    migrate_view_updatedAt legacy docId client now,
    fun p m hlook => migrate_view_block legacy docId client now p m hbk hlook,
    migrate_view_characters legacy docId client now,
    fun k v hlook => migrate_view_setting legacy docId client now k v hsk hlook,
    migrate_view_tracks legacy docId client now, ?_, ?_, ?_⟩
  · intro p c hmem hd hq hf hc
    exact migrateLoop_moved faulty (mdFilePaths files) hpaths (files, []) hfk
      p c hmem hd hq hf hc
  · intro p hmem hd hq hf
    exact migrateLoop_faulty_logged faulty (mdFilePaths files) hpaths (files, [])
      p hmem hd hq hf
  · intro p hdp
    constructor
    · intro hw
      rcases migrateLoop_warn_mem faulty (mdFilePaths files) (files, []) p hw with
        h | ⟨_, hfalse, _⟩
      · cases h
      · rw [hdp] at hfalse
        cases hfalse
    · intro hs
      exact migrateLoop_docs_isSome faulty (mdFilePaths files) (files, []) p hdp hs

/-- Witness for C9 on the scenario from the spec: a legacy project with one
block `x.md` tagged `t1` and the physical file `x.md`: the migrated
document has `blocks[x.md]` with tags `[t1]`, and the file ends up at
`docs/x.md` with its content while the root copy is deleted. -/
theorem C9_migration_witness :
    fieldVals (migrateDocState
        ⟨"L", "lpid", 1, 2, [("x.md", ⟨"id1", ["t1"], []⟩)], ["charA"],
          [("s", "v")], ["tr"]⟩ "did" 0 0) (.blockEntry "x.md")
      = {YValue.block ⟨"id1", ["t1"], []⟩} ∧
    fieldVals (migrateDocState
        ⟨"L", "lpid", 1, 2, [("x.md", ⟨"id1", ["t1"], []⟩)], ["charA"],
          [("s", "v")], ["tr"]⟩ "did" 0 0) .name = {YValue.str "L"} ∧
    fsRead (migrateFilesToDocsFolder [("x.md", "content")] []).1 "docs/x.md"
      = some "content" ∧
    fsRead (migrateFilesToDocsFolder [("x.md", "content")] []).1 "x.md" = none := by
  have h := C9_migration_correct
    ⟨"L", "lpid", 1, 2, [("x.md", ⟨"id1", ["t1"], []⟩)], ["charA"],
      [("s", "v")], ["tr"]⟩ "did" 0 0 [("x.md", "content")] []
    (by decide) (by decide) (by decide)
  have hfile := h.2.2.2.2.2.2.2.2.1 "x.md" "content" (by decide) (by decide)
    (by decide) (by simp) rfl
  refine ⟨h.2.2.2.2.1 "x.md" ⟨"id1", ["t1"], []⟩ rfl, h.1, ?_, hfile.2⟩
  have : ("docs/" ++ "x.md") = "docs/x.md" := rfl
  rw [← this]
  exact hfile.1

end Quill
